import Mathlib

/-!
Shallow embedding of `src/debruijn/debruijn.py`, a De Bruijn graph sequence
assembler, together with proofs settling the frozen claims about it.

Modelling conventions:
* Python strings (reads, k-mers, graph nodes) are `List Char`.
* A networkx `DiGraph` is a `Graph`: a node list and an edge list, both kept
  in insertion order (networkx iterates nodes and adjacency in insertion
  order, and Python dicts preserve insertion order).  Each edge carries its
  integer `weight` attribute.
* Exact rational arithmetic (`ℚ`) stands in for Python's float arithmetic in
  `statistics.mean` / `statistics.stdev`; all quantities reached in the
  modelled flows are exact small rationals.  `statistics.stdev l` equals
  `Real.sqrt (sample_variance l)`, which is positive exactly when
  `sample_variance l` is positive, so the code's `stdev(..) > 0` tests are
  embedded as `0 < sample_variance ..`.
* Fallible code paths return `Option`: `none` models a raised Python
  exception (e.g. `statistics.mean` on an empty sequence, or the unbound
  name `randint` on line 211 of the source).  Loops whose termination is in
  question (`simplify_bubbles`, the recursion in `solve_entry_tips`) take an
  explicit fuel argument; `none` also models running forever / exhausting
  fuel, and theorems quantify over the fuel where that matters.
-/

abbrev Node := List Char

abbrev GEdge := Node × Node × ℕ

/-- A networkx `DiGraph` restricted to the operations the source uses:
node list and edge list in insertion order, one `weight` per edge. -/
structure Graph where
  nodes : List Node
  edges : List GEdge
deriving DecidableEq

def empty_digraph : Graph := ⟨[], []⟩

/-- networkx `DiGraph.add_edge(u, v, weight=w)`: inserts the endpoints that
are not yet present (`u` first, then `v`), then creates the edge `u → v`
with attribute `w`, overwriting the attribute (in place, keeping the edge's
position) if the edge already exists. -/
def add_edge (g : Graph) (u v : Node) (w : ℕ) : Graph :=
  let ns1 := if u ∈ g.nodes then g.nodes else g.nodes ++ [u]
  let ns2 := if v ∈ ns1 then ns1 else ns1 ++ [v]
  let es := if ∃ e ∈ g.edges, e.1 = u ∧ e.2.1 = v then
      g.edges.map (fun e => if e.1 = u ∧ e.2.1 = v then (u, v, w) else e)
    else g.edges ++ [(u, v, w)]
  ⟨ns2, es⟩

/-- networkx `G.successors(u)` in adjacency (edge-insertion) order. -/
def successors (g : Graph) (u : Node) : List Node :=
  (g.edges.filter (fun e => decide (e.1 = u))).map (fun e => e.2.1)

/-- networkx `G.predecessors(v)` in adjacency (edge-insertion) order. -/
def predecessors (g : Graph) (v : Node) : List Node :=
  (g.edges.filter (fun e => decide (e.2.1 = v))).map (fun e => e.1)

/-- networkx `G.remove_nodes_from(l)`: removes the listed nodes and every
edge incident to any of them; nodes not present are silently ignored. -/
def remove_nodes_from (g : Graph) (l : List Node) : Graph :=
  ⟨g.nodes.filter (fun v => decide (v ∉ l)),
   g.edges.filter (fun e => decide (e.1 ∉ l ∧ e.2.1 ∉ l))⟩

/-- Source `cut_kmer(read, kmer_size)` (lines 122-129): the contiguous
substrings `read[i : i+k]` for `i in range(len(read) - kmer_size + 1)`.
Nat subtraction makes `len + 1 - k` the Python `max(0, len - k + 1)`. -/
def cut_kmer (read : List Char) (kmer_size : ℕ) : List (List Char) :=
  (List.range (read.length + 1 - kmer_size)).map
    (fun i => (read.drop i).take kmer_size)

/-- One `kmer_dict` update of `build_kmer_dict` (source lines 141-144):
`if kmer in kmer_dict: kmer_dict[kmer] += 1 else: kmer_dict[kmer] = 1`.
A Python dict is an association list with distinct keys in insertion order;
an update keeps the key's position and a new key is appended. -/
def dict_increment : List (List Char × ℕ) → List Char → List (List Char × ℕ)
  | [], km => [(km, 1)]
  | e :: t, km => if e.1 = km then (e.1, e.2 + 1) :: t else e :: dict_increment t km

/-- Source `build_kmer_dict(fastq_file, kmer_size)` (lines 132-145), with the
external read source (`read_fastq`) abstracted as the list of reads it
yields. -/
def build_kmer_dict (reads : List (List Char)) (kmer_size : ℕ) :
    List (List Char × ℕ) :=
  reads.foldl (fun dict r => (cut_kmer r kmer_size).foldl dict_increment dict) []

/-- Source `build_graph(kmer_dict)` (lines 148-159): for each entry, add the
edge `kmer[:-1] → kmer[1:]` with `weight` the entry's count. -/
def build_graph (kmer_dict : List (List Char × ℕ)) : Graph :=
  kmer_dict.foldl (fun g e => add_edge g e.1.dropLast (e.1.drop 1) e.2) empty_digraph

/-- DFS core of networkx `all_simple_paths`: all simple paths from `u` to
`t` avoiding `visited`, children explored in adjacency order.  The fuel is
an upper bound on the remaining path length; `all_simple_paths` supplies
one more than the node count, which no simple path can exceed. -/
def simple_paths_aux (g : Graph) : ℕ → List Node → Node → Node → List (List Node)
  | 0, _, _, _ => []
  | fuel + 1, visited, u, t =>
    if u = t then [[u]]
    else ((successors g u).filter (fun v => decide (v ∉ u :: visited))).flatMap
      (fun v => (simple_paths_aux g fuel (u :: visited) v t).map (fun p => u :: p))

/-- networkx `all_simple_paths(G, source, target)` in DFS emission order. -/
def all_simple_paths (g : Graph) (s t : Node) : List (List Node) :=
  simple_paths_aux g (g.nodes.length + 1) [] s t

/-- networkx `has_path(G, source, target)`: whether `target` is reachable
from `source`; reachability is equivalent to the existence of a simple
path, embedded here as nonemptiness of the simple-path enumeration. -/
def has_path (g : Graph) (s t : Node) : Bool :=
  !(all_simple_paths g s t).isEmpty

/-- The common ancestors (in the reflexive sense used by networkx, which
counts a node among its own ancestors) of `u` and `v`, in node order. -/
def common_ancestors (g : Graph) (u v : Node) : List Node :=
  g.nodes.filter (fun w => has_path g w u && has_path g w v)

/-- The walk-down loop of networkx's naive lowest-common-ancestor
computation: repeatedly step to the first immediate successor that is still
a common ancestor, until none is. -/
def lca_walk (g : Graph) (ca : List Node) : ℕ → Node → Node
  | 0, c => c
  | fuel + 1, c =>
    match (successors g c).find? (fun s => decide (s ∈ ca)) with
    | some s => lca_walk g ca fuel s
    | none => c

/-- networkx `lowest_common_ancestor(G, u, v)` (naive algorithm): `none`
when `u` and `v` have no common ancestor (networkx returns the default,
`None`); otherwise start from a common ancestor and walk down within the
common-ancestor set. -/
def lowest_common_ancestor (g : Graph) (u v : Node) : Option Node :=
  match common_ancestors g u v with
  | [] => none
  | c :: rest => some (lca_walk g (c :: rest) (c :: rest).length c)

/-- Python `statistics.mean` on a list of rationals (raising on the empty
list is handled at each call site). -/
def list_mean (l : List ℚ) : ℚ := l.sum / l.length

/-- The sample variance underlying Python `statistics.stdev`:
`stdev l = sqrt (sample_variance l)`, so `stdev l > 0 ↔ 0 < sample_variance l`
(`stdev` raises for fewer than two data points; every call site in the
source guards with a length check first). -/
def sample_variance (l : List ℚ) : ℚ :=
  (l.map (fun x => (x - list_mean l) ^ 2)).sum / ((l.length : ℚ) - 1)

/-- Python `max(l)` for a nonempty list (the default is never used at the
guarded call sites). -/
def py_max [LinearOrder α] [Inhabited α] : List α → α
  | [] => default
  | x :: xs => xs.foldl max x

/-- Python `l.index(a)`: index of the first element equal to `a`. -/
def py_index [DecidableEq α] (l : List α) (a : α) : ℕ :=
  l.findIdx (fun x => decide (x = a))

/-- The branch cascade of `select_best_path` (source lines 206-211) that
picks `best_index`.  The final branch is `randint(0, len(path_list) - 1)`:
`randint` is an unbound name in the source module (only `random` is
imported, and the module seeds the process-global generator with
`random.seed(9001)` at import time), so reaching that branch raises a
`NameError`, modelled as `none`. -/
def select_best_index (weight_avg_list : List ℚ) (path_length : List ℕ) :
    Option ℕ :=
  if 0 < sample_variance weight_avg_list then
    some (py_index weight_avg_list (py_max weight_avg_list))
  else if 0 < sample_variance (path_length.map (fun n : ℕ => (n : ℚ))) then
    some (py_index path_length (py_max path_length))
  else none

/-- The node list `remove_paths` deletes for one path (source lines
178-182): the whole path, minus its first node unless `delete_entry_node`,
minus its last node unless `delete_sink_node`. -/
def nodes_to_remove (delete_entry_node delete_sink_node : Bool)
    (p : List Node) : List Node :=
  let l1 := if delete_entry_node then p else p.drop 1
  if delete_sink_node then l1 else l1.dropLast

/-- Source `remove_paths(graph, path_list, delete_entry_node, delete_sink_node)`
(source lines 162-184). -/
def remove_paths (g : Graph) (path_list : List (List Node))
    (delete_entry_node delete_sink_node : Bool) : Graph :=
  path_list.foldl
    (fun h p => remove_nodes_from h (nodes_to_remove delete_entry_node delete_sink_node p)) g

/-- The paths `select_best_path` removes (source line 214): every path whose
enumeration index differs from `best_index`. -/
def losing_paths (path_list : List (List Node)) (best_index : ℕ) :
    List (List Node) :=
  (path_list.enum.filter (fun q => decide (q.1 ≠ best_index))).map (fun q => q.2)

/-- Source `select_best_path(graph, path_list, path_length, weight_avg_list,
delete_entry_node, delete_sink_node)` (source lines 187-216); `none` is the
`NameError` raised by the unbound `randint` on the all-tied branch. -/
def select_best_path (g : Graph) (path_list : List (List Node))
    (path_length : List ℕ) (weight_avg_list : List ℚ)
    (delete_entry_node delete_sink_node : Bool) : Option Graph :=
  match select_best_index weight_avg_list path_length with
  | none => none
  | some best_index =>
    some (remove_paths g (losing_paths path_list best_index)
      delete_entry_node delete_sink_node)

/-- The edge list of `graph.subgraph(path)` (source line 227): every graph
edge whose two endpoints both lie in the path's node set. -/
def induced_edges (g : Graph) (p : List Node) : List GEdge :=
  g.edges.filter (fun e => decide (e.1 ∈ p) && decide (e.2.1 ∈ p))

/-- Source `path_average_weight(graph, path)` (lines 219-228): the mean of
the `weight` attributes over the induced subgraph's edges; `none` is the
`StatisticsError` that `statistics.mean` raises on an empty edge list. -/
def path_average_weight (g : Graph) (p : List Node) : Option ℚ :=
  let ws := (induced_edges g p).map (fun e => (e.2.2 : ℚ))
  if ws.isEmpty then none else some (list_mean ws)

/-- The list `[path_average_weight(graph, path) for path in paths]` with exception
propagation: `none` as soon as one average raises. -/
def map_avg (g : Graph) : List (List Node) → Option (List ℚ)
  | [] => some []
  | p :: ps =>
    match path_average_weight g p, map_avg g ps with
    | some w, some ws => some (w :: ws)
    | _, _ => none

/-- Source `solve_bubble(graph, ancestor_node, descendant_node)` (lines
231-250). -/
def solve_bubble (g : Graph) (ancestor_node descendant_node : Node) :
    Option Graph :=
  let paths := all_simple_paths g ancestor_node descendant_node
  if paths.length < 2 then some g
  else
    match map_avg g paths with
    | none => none
    | some ws => select_best_path g paths (paths.map List.length) ws false false

/-- One scan of the `for node in graph.nodes` loop of `simplify_bubbles`
(source lines 262-270): the first node with more than one predecessor whose
first two predecessors have a truthy lowest common ancestor, paired with
that ancestor.  (A falsy ancestor — `None` or the empty string — skips to
the next node without setting `bubble_detected`.) -/
def bubble_scan (g : Graph) : Option (Node × Node) :=
  g.nodes.findSome? (fun n =>
    match predecessors g n with
    | p0 :: p1 :: _ =>
      match lowest_common_ancestor g p0 p1 with
      | some anc => if anc = [] then none else some (anc, n)
      | none => none
    | _ => none)

/-- Source `simplify_bubbles(graph)` (lines 253-271): the
`while bubble_detected` loop, which re-runs the scan after every
`solve_bubble` call (the scan's `break` restarts the node iteration).
Fuel bounds the number of iterations; `none` means the loop has not
finished within the given fuel (or `solve_bubble` raised). -/
def simplify_bubbles : ℕ → Graph → Option Graph
  | 0, _ => none
  | fuel + 1, g =>
    match bubble_scan g with
    | none => some g
    | some (anc, n) =>
      match solve_bubble g anc n with
      | none => none
      | some g2 => simplify_bubbles fuel g2

/-- Source `get_starting_nodes(graph)` (lines 353-360): nodes without
predecessors, in node order. -/
def get_starting_nodes (g : Graph) : List Node :=
  g.nodes.filter (fun v => (predecessors g v).isEmpty)

/-- Source `get_sink_nodes(graph)` (lines 363-370): nodes without
successors, in node order. -/
def get_sink_nodes (g : Graph) : List Node :=
  g.nodes.filter (fun v => (successors g v).isEmpty)

/-- The candidate paths `solve_entry_tips` collects for one node (source
lines 286-295): for every starting node with a path to `n`, every simple
path to `n` with at least two nodes, in starting-node-then-DFS order. -/
def entry_candidates (g : Graph) (starting_nodes : List Node) (n : Node) :
    List (List Node) :=
  starting_nodes.flatMap (fun s =>
    if has_path g s n then
      (all_simple_paths g s n).filter (fun p => decide (2 ≤ p.length))
    else [])

/-- The `for node in graph.nodes` scan of `solve_entry_tips` (source lines
281-298): the first node with more than one predecessor and more than one
collected candidate path.  (A node failing either test is skipped and the
scan moves on to the next node.) -/
def entry_scan (g : Graph) (starting_nodes : List Node) : Option Node :=
  g.nodes.find? (fun n =>
    decide (2 ≤ (predecessors g n).length) &&
    decide (2 ≤ (entry_candidates g starting_nodes n).length))

/-- Source `solve_entry_tips(graph, starting_nodes)` (lines 274-306),
including its tail recursion on the freshly recomputed starting nodes.
Fuel bounds the recursion depth; `none` models nontermination within the
fuel or a raise inside the call. -/
def solve_entry_tips : ℕ → Graph → List Node → Option Graph
  | 0, _, _ => none
  | fuel + 1, g, starting_nodes =>
    match entry_scan g starting_nodes with
    | none => some g
    | some n =>
      let cands := entry_candidates g starting_nodes n
      match map_avg g cands with
      | none => none
      | some ws =>
        match select_best_path g cands (cands.map List.length) ws true false with
        | none => none
        | some g2 => solve_entry_tips fuel g2 (get_starting_nodes g2)

/-- The contig built from one path (source lines 391-393): the first node's
full string, then the last character of every subsequent node.  (Python's
`node[-1]` would raise on an empty node; the default `'?'` is unreachable
for the k ≥ 2 graphs the pipeline builds.) -/
def contig_of_path (p : List Node) : List Char :=
  match p with
  | [] => []
  | h :: t => h ++ t.map (fun n => n.getLastD '?')

/-- Source `get_contigs(graph, starting_nodes, ending_nodes)` (lines
373-395): one `(sequence, length)` pair per simple path from a starting
node to a reachable ending node, in scan order. -/
def get_contigs (g : Graph) (starting_nodes ending_nodes : List Node) :
    List (List Char × ℕ) :=
  starting_nodes.flatMap (fun s =>
    ending_nodes.flatMap (fun e =>
      if has_path g s e then
        (all_simple_paths g s e).map
          (fun p => (contig_of_path p, (contig_of_path p).length))
      else []))

/-! ### Generic helper lemmas about `py_max`, `py_index`, means and variances -/

theorem foldl_max_eq_or_mem [LinearOrder α] (l : List α) :
    ∀ a : α, l.foldl max a = a ∨ l.foldl max a ∈ l := by
  induction l with
  | nil => intro a; exact Or.inl rfl
  | cons x xs ih =>
    intro a
    rcases ih (max a x) with h | h
    · rw [List.foldl_cons, h]
      rcases max_choice a x with h2 | h2
      · exact Or.inl h2
      · exact Or.inr (by rw [h2]; exact List.mem_cons_self x xs)
    · exact Or.inr (List.mem_cons_of_mem x h)

theorem le_foldl_max [LinearOrder α] (l : List α) :
    ∀ a : α, a ≤ l.foldl max a ∧ ∀ x ∈ l, x ≤ l.foldl max a := by
  induction l with
  | nil => intro a; exact ⟨le_refl a, by simp⟩
  | cons x xs ih =>
    intro a
    obtain ⟨h1, h2⟩ := ih (max a x)
    refine ⟨le_trans (le_max_left a x) h1, ?_⟩
    intro y hy
    rcases List.mem_cons.1 hy with rfl | hy2
    · exact le_trans (le_max_right a y) h1
    · exact h2 y hy2

theorem py_max_mem [LinearOrder α] [Inhabited α] (l : List α) (h : l ≠ []) :
    py_max l ∈ l := by
  cases l with
  | nil => exact absurd rfl h
  | cons x xs =>
    rcases foldl_max_eq_or_mem xs x with h1 | h1
    · rw [py_max, h1]; exact List.mem_cons_self x xs
    · exact List.mem_cons_of_mem x h1

theorem le_py_max [LinearOrder α] [Inhabited α] (l : List α) (x : α) (hx : x ∈ l) :
    x ≤ py_max l := by
  cases l with
  | nil => simp at hx
  | cons y ys =>
    rcases List.mem_cons.1 hx with rfl | h
    · exact (le_foldl_max ys x).1
    · exact (le_foldl_max ys y).2 x h

theorem py_index_spec [DecidableEq α] (l : List α) (a d : α) (h : a ∈ l) :
    py_index l a < l.length ∧ l.getD (py_index l a) d = a ∧
      ∀ j < py_index l a, l.getD j d ≠ a := by
  induction l with
  | nil => simp at h
  | cons b t ih =>
    by_cases hba : b = a
    · have h0 : py_index (b :: t) a = 0 := by
        simp [py_index, List.findIdx_cons, hba]
      refine ⟨by simp [h0], ?_, ?_⟩
      · rw [h0]
        simpa using hba
      · intro j hj
        omega
    · have hpi : py_index (b :: t) a = py_index t a + 1 := by
        simp [py_index, List.findIdx_cons, hba]
      have hat : a ∈ t := by
        rcases List.mem_cons.1 h with h' | h'
        · exact absurd h'.symm hba
        · exact h'
      obtain ⟨h1, h2, h3⟩ := ih hat
      refine ⟨by simpa [hpi] using Nat.succ_lt_succ h1, by simpa [hpi] using h2, ?_⟩
      intro j hj
      cases j with
      | zero => simpa using hba
      | succ j' =>
        rw [hpi] at hj
        simpa using h3 j' (Nat.lt_of_succ_lt_succ hj)

theorem list_mean_const (l : List ℚ) (c : ℚ) (h : ∀ x ∈ l, x = c) (hne : l ≠ []) :
    list_mean l = c := by
  have hsum := List.sum_eq_card_nsmul l c h
  have hl0 : (0 : ℕ) < l.length := List.length_pos.2 hne
  have hl : (l.length : ℚ) ≠ 0 := by exact_mod_cast hl0.ne'
  rw [list_mean, hsum, nsmul_eq_mul]
  field_simp

theorem sample_variance_of_const (l : List ℚ) (hne : l ≠ [])
    (h : ∀ x ∈ l, ∀ y ∈ l, x = y) : sample_variance l = 0 := by
  obtain ⟨a, ha⟩ : ∃ a, a ∈ l := by
    cases l with
    | nil => exact absurd rfl hne
    | cons x t => exact ⟨x, List.mem_cons_self x t⟩
  have hmean : list_mean l = a := list_mean_const l a (fun x hx => h x hx a ha) hne
  have hz : (l.map (fun x => (x - list_mean l) ^ 2)).sum = 0 := by
    apply List.sum_eq_zero
    intro y hy
    obtain ⟨x, hx, rfl⟩ := List.mem_map.1 hy
    rw [hmean, h x hx a ha, sub_self]
    ring
  rw [sample_variance, hz, zero_div]

theorem variance_pos_iff (l : List ℚ) (h2 : 2 ≤ l.length) :
    0 < sample_variance l ↔ ∃ x ∈ l, ∃ y ∈ l, x ≠ y := by
  have hne : l ≠ [] := by
    intro h
    rw [h] at h2
    simp at h2
  have hpos : (0 : ℚ) < (l.length : ℚ) - 1 := by
    have : (2 : ℚ) ≤ (l.length : ℚ) := by exact_mod_cast h2
    linarith
  constructor
  · intro hv
    by_contra hall
    push_neg at hall
    rw [sample_variance_of_const l hne hall] at hv
    exact lt_irrefl 0 hv
  · rintro ⟨x, hx, y, hy, hxy⟩
    have hne2 : x ≠ list_mean l ∨ y ≠ list_mean l := by
      by_contra hc
      push_neg at hc
      exact hxy (hc.1.trans hc.2.symm)
    obtain ⟨z, hz, hzne⟩ : ∃ z ∈ l, z ≠ list_mean l := by
      rcases hne2 with h | h
      · exact ⟨x, hx, h⟩
      · exact ⟨y, hy, h⟩
    have hzpos : 0 < (z - list_mean l) ^ 2 := by
      have hsub : z - list_mean l ≠ 0 := sub_ne_zero.2 hzne
      exact lt_of_le_of_ne (sq_nonneg _) (Ne.symm (pow_ne_zero 2 hsub))
    have hnonneg : ∀ u ∈ l.map (fun x => (x - list_mean l) ^ 2), 0 ≤ u := by
      intro u hu
      obtain ⟨v, _, rfl⟩ := List.mem_map.1 hu
      exact sq_nonneg _
    have hsum : (z - list_mean l) ^ 2 ≤ (l.map (fun x => (x - list_mean l) ^ 2)).sum :=
      List.single_le_sum hnonneg _ (List.mem_map.2 ⟨z, hz, rfl⟩)
    exact div_pos (lt_of_lt_of_le hzpos hsum) hpos

theorem sample_variance_pair (x y : ℚ) :
    sample_variance [x, y] = (x - y) ^ 2 / 2 := by
  simp only [sample_variance, list_mean, List.map_cons, List.map_nil, List.sum_cons,
    List.sum_nil, List.length_cons, List.length_nil]
  push_cast
  ring

/-! ### Claim C3 -/

/-- Claim C3: with at least two paths, a nonzero sample standard deviation of
the average weights makes `select_best_path` pick the path of maximal average
weight, the first such path in enumeration order on ties; otherwise a nonzero
standard deviation of the lengths makes it pick the path of maximal length
under the same first-in-order tie rule.  (The chosen index is
`select_best_index`, the branch cascade of source lines 206-211.) -/
theorem C3_select_best_path_deterministic (w : List ℚ) (len : List ℕ)
    (h2 : 2 ≤ w.length) (hl : len.length = w.length) :
    ((∃ x ∈ w, ∃ y ∈ w, x ≠ y) →
      ∃ i, select_best_index w len = some i ∧ i < w.length ∧
        (∀ j < w.length, w.getD j 0 ≤ w.getD i 0) ∧
        (∀ j < i, w.getD j 0 < w.getD i 0)) ∧
    ((∀ x ∈ w, ∀ y ∈ w, x = y) → (∃ x ∈ len, ∃ y ∈ len, x ≠ y) →
      ∃ i, select_best_index w len = some i ∧ i < len.length ∧
        (∀ j < len.length, len.getD j 0 ≤ len.getD i 0) ∧
        (∀ j < i, len.getD j 0 < len.getD i 0)) := by
  constructor
  · intro hdist
    have hv := (variance_pos_iff w h2).2 hdist
    have hwne : w ≠ [] := by
      intro h
      rw [h] at h2
      simp at h2
    obtain ⟨h1, hgd, h3⟩ := py_index_spec w (py_max w) 0 (py_max_mem w hwne)
    refine ⟨py_index w (py_max w), ?_, h1, ?_, ?_⟩
    · unfold select_best_index
      rw [if_pos hv]
    · intro j hj
      rw [hgd]
      rw [List.getD_eq_getElem w 0 hj]
      exact le_py_max w _ (List.getElem_mem hj)
    · intro j hj
      have hjlen : j < w.length := lt_trans hj h1
      have hle : w.getD j 0 ≤ py_max w := by
        rw [List.getD_eq_getElem w 0 hjlen]
        exact le_py_max w _ (List.getElem_mem hjlen)
      rw [hgd]
      exact lt_of_le_of_ne hle (h3 j hj)
  · intro hall hdist
    have hwne : w ≠ [] := by
      intro h
      rw [h] at h2
      simp at h2
    have hv0 : ¬ 0 < sample_variance w := by
      rw [sample_variance_of_const w hwne hall]
      exact lt_irrefl 0
    have hlen2 : 2 ≤ len.length := by omega
    have hlcast : 2 ≤ (len.map (fun n : ℕ => (n : ℚ))).length := by
      rw [List.length_map]
      exact hlen2
    have hdistq : ∃ x ∈ len.map (fun n : ℕ => (n : ℚ)), ∃ y ∈ len.map (fun n : ℕ => (n : ℚ)), x ≠ y := by
      obtain ⟨x, hx, y, hy, hxy⟩ := hdist
      exact ⟨(x : ℚ), List.mem_map.2 ⟨x, hx, rfl⟩, (y : ℚ), List.mem_map.2 ⟨y, hy, rfl⟩,
        by exact_mod_cast hxy⟩
    have hv1 := (variance_pos_iff _ hlcast).2 hdistq
    have hlne : len ≠ [] := by
      intro h
      rw [h] at hlen2
      simp at hlen2
    obtain ⟨h1, hgd, h3⟩ := py_index_spec len (py_max len) 0 (py_max_mem len hlne)
    refine ⟨py_index len (py_max len), ?_, h1, ?_, ?_⟩
    · unfold select_best_index
      rw [if_neg hv0, if_pos hv1]
    · intro j hj
      rw [hgd]
      rw [List.getD_eq_getElem len 0 hj]
      exact le_py_max len _ (List.getElem_mem hj)
    · intro j hj
      have hjlen : j < len.length := lt_trans hj h1
      have hle : len.getD j 0 ≤ py_max len := by
        rw [List.getD_eq_getElem len 0 hjlen]
        exact le_py_max len _ (List.getElem_mem hjlen)
      rw [hgd]
      exact lt_of_le_of_ne hle (h3 j hj)

/-- Witness for C3 at weights `[1, 3, 2]` and lengths `[3, 3, 3]`. -/
theorem C3_select_best_path_deterministic_witness :
    (2 ≤ ([(1 : ℚ), 3, 2]).length ∧ ([3, 3, 3] : List ℕ).length = ([(1 : ℚ), 3, 2]).length) ∧
    (∃ i, select_best_index [(1 : ℚ), 3, 2] [3, 3, 3] = some i ∧
      i < ([(1 : ℚ), 3, 2]).length ∧
      (∀ j < ([(1 : ℚ), 3, 2]).length,
        ([(1 : ℚ), 3, 2]).getD j 0 ≤ ([(1 : ℚ), 3, 2]).getD i 0) ∧
      (∀ j < i, ([(1 : ℚ), 3, 2]).getD j 0 < ([(1 : ℚ), 3, 2]).getD i 0)) :=
  ⟨⟨by norm_num, by norm_num⟩,
    (C3_select_best_path_deterministic [(1 : ℚ), 3, 2] [3, 3, 3]
      (by norm_num) (by norm_num)).1
      ⟨1, by simp, 3, by simp, by norm_num⟩⟩

/-! ### Pair-selection helper lemmas (used by concrete evaluations) -/

theorem select_best_index_pair_fst (w1 w2 : ℚ) (len : List ℕ) (h : w2 < w1) :
    select_best_index [w1, w2] len = some 0 := by
  have hv : 0 < sample_variance [w1, w2] := by
    rw [sample_variance_pair]
    have hsub : w1 - w2 ≠ 0 := sub_ne_zero.2 h.ne'
    have : 0 < (w1 - w2) ^ 2 := lt_of_le_of_ne (sq_nonneg _) (Ne.symm (pow_ne_zero 2 hsub))
    linarith
  have hmax : py_max [w1, w2] = w1 := by
    show max w1 w2 = w1
    exact max_eq_left h.le
  unfold select_best_index
  rw [if_pos hv, hmax]
  simp [py_index, List.findIdx_cons]

theorem select_best_index_pair_snd (w1 w2 : ℚ) (len : List ℕ) (h : w1 < w2) :
    select_best_index [w1, w2] len = some 1 := by
  have hv : 0 < sample_variance [w1, w2] := by
    rw [sample_variance_pair]
    have hsub : w1 - w2 ≠ 0 := sub_ne_zero.2 h.ne
    have : 0 < (w1 - w2) ^ 2 := lt_of_le_of_ne (sq_nonneg _) (Ne.symm (pow_ne_zero 2 hsub))
    linarith
  have hmax : py_max [w1, w2] = w2 := by
    show max w1 w2 = w2
    exact max_eq_right h.le
  unfold select_best_index
  rw [if_pos hv, hmax]
  simp [py_index, List.findIdx_cons, h.ne]

/-! ### Claim C4 -/

/-- The concrete `select_best_path` call exhibiting the all-tied branch: a
graph with two candidate paths of equal average weight and equal length. -/
def tiedGraph : Graph :=
  ⟨[['A'], ['N'], ['M']], [(['A'], ['N'], 1), (['A'], ['M'], 1)]⟩

/-- Claim C4 (code bug): with all average weights equal (`[1, 1]`) and all
path lengths equal (`[2, 2]`), `select_best_path` does not return a selected
path: the tie-break branch evaluates the unbound name `randint` (the source
imports only `random` and seeds the process-global generator with
`random.seed(9001)` at import time, and no generator is passed in), so the
call raises `NameError`, modelled as `none`. -/
theorem C4_tied_selection_crashes :
    select_best_path tiedGraph [[['A'], ['N']], [['A'], ['M']]] [2, 2] [1, 1]
      false false = none := by
  have h1 : sample_variance [(1 : ℚ), 1] = 0 := by
    rw [sample_variance_pair]
    ring
  have h2 : sample_variance (([2, 2] : List ℕ).map (fun n : ℕ => (n : ℚ))) = 0 := by
    have : (([2, 2] : List ℕ).map (fun n : ℕ => (n : ℚ))) = [(2 : ℚ), 2] := by
      norm_num
    rw [this, sample_variance_pair]
    ring
  unfold select_best_path select_best_index
  rw [h1, h2]
  norm_num

/-! ### Claim C9 -/

/-- Claim C9: `solve_bubble` on an ancestor/descendant pair with fewer than
two simple paths between them performs no resolution and returns the graph
unchanged, without raising (source lines 240-242 return the graph as-is). -/
theorem C9_solve_bubble_no_resolution (g : Graph) (a d : Node)
    (h : (all_simple_paths g a d).length < 2) : solve_bubble g a d = some g := by
  unfold solve_bubble
  rw [if_pos h]

/-- A two-node graph with a single edge; there is no path from `['B']` back
to `['A']`. -/
def singleEdgeGraph : Graph := ⟨[['A'], ['B']], [(['A'], ['B'], 1)]⟩

/-- Witness for C9: no simple path leads from `['B']` to `['A']` in
`singleEdgeGraph`, and `solve_bubble` leaves the graph untouched. -/
theorem C9_solve_bubble_no_resolution_witness :
    (all_simple_paths singleEdgeGraph ['B'] ['A']).length < 2 ∧
      solve_bubble singleEdgeGraph ['B'] ['A'] = some singleEdgeGraph :=
  ⟨by decide, C9_solve_bubble_no_resolution singleEdgeGraph ['B'] ['A'] (by decide)⟩

/-! ### Claim C7 -/

/-- Total of all occurrence counts stored in a k-mer dictionary. -/
def sum_counts (d : List (List Char × ℕ)) : ℕ := (d.map (fun e => e.2)).sum

theorem sum_counts_dict_increment (d : List (List Char × ℕ)) (km : List Char) :
    sum_counts (dict_increment d km) = sum_counts d + 1 := by
  induction d with
  | nil => simp [dict_increment, sum_counts]
  | cons e t ih =>
    by_cases h : e.1 = km
    · simp only [dict_increment, if_pos h, sum_counts, List.map_cons, List.sum_cons]
      unfold sum_counts at ih
      omega
    · simp only [dict_increment, if_neg h, sum_counts, List.map_cons, List.sum_cons]
      unfold sum_counts at ih
      omega

theorem sum_counts_foldl_kmers (ks : List (List Char)) :
    ∀ d, sum_counts (ks.foldl dict_increment d) = sum_counts d + ks.length := by
  induction ks with
  | nil => intro d; simp
  | cons km ks ih =>
    intro d
    rw [List.foldl_cons, ih, sum_counts_dict_increment]
    simp [List.length_cons]
    omega

theorem sum_counts_build_aux (k : ℕ) (reads : List (List Char)) :
    ∀ d, sum_counts (reads.foldl
        (fun dict r => (cut_kmer r k).foldl dict_increment dict) d) =
      sum_counts d + (reads.map (fun r => (cut_kmer r k).length)).sum := by
  induction reads with
  | nil => intro d; simp
  | cons r rs ih =>
    intro d
    rw [List.foldl_cons, ih, sum_counts_foldl_kmers]
    simp [List.sum_cons]
    omega

theorem cut_kmer_length (r : List Char) (k : ℕ) :
    (cut_kmer r k).length = r.length + 1 - k := by
  simp [cut_kmer]

theorem cast_sum_kmer_lengths (k : ℕ) (reads : List (List Char)) :
    (((reads.map (fun r => (cut_kmer r k).length)).sum : ℕ) : ℤ) =
      (reads.map (fun r => max 0 ((r.length : ℤ) - k + 1))).sum := by
  induction reads with
  | nil => simp
  | cons r rs ih =>
    simp only [List.map_cons, List.sum_cons]
    push_cast
    rw [← ih]
    have h : ((cut_kmer r k).length : ℤ) = max 0 ((r.length : ℤ) - k + 1) := by
      rw [cut_kmer_length]
      omega
    push_cast at h ⊢
    omega

/-- Claim C7: for every sequence of reads and every `k ≥ 1`, the total of all
counts in the k-mer dictionary equals the sum over reads of
`max(0, len(read) - k + 1)`, and a read shorter than `k` contributes no
k-mers at all (no error is raised). -/
theorem C7_kmer_counting_total (reads : List (List Char)) (k : ℕ) (hk : 1 ≤ k) :
    ((sum_counts (build_kmer_dict reads k) : ℤ) =
      (reads.map (fun r => max 0 ((r.length : ℤ) - k + 1))).sum) ∧
    ∀ r : List Char, r.length < k → cut_kmer r k = [] := by
  constructor
  · have h1 : sum_counts (build_kmer_dict reads k) =
        (reads.map (fun r => (cut_kmer r k).length)).sum := by
      unfold build_kmer_dict
      rw [sum_counts_build_aux]
      simp [sum_counts]
    rw [h1]
    exact cast_sum_kmer_lengths k reads
  · intro r h
    unfold cut_kmer
    have h0 : r.length + 1 - k = 0 := by omega
    rw [h0]
    simp

/-- Witness for C7 at `reads = ["AB", "C"]`, `k = 2`: the dictionary holds the
single 2-mer `"AB"` once, and the short read `"C"` contributes nothing. -/
theorem C7_kmer_counting_total_witness :
    (1 ≤ 2) ∧
    (((sum_counts (build_kmer_dict [['A', 'B'], ['C']] 2) : ℤ) =
      ([['A', 'B'], ['C']].map
        (fun r => max 0 ((r.length : ℤ) - 2 + 1))).sum) ∧
    ∀ r : List Char, r.length < 2 → cut_kmer r 2 = []) :=
  ⟨by norm_num, C7_kmer_counting_total [['A', 'B'], ['C']] 2 (by norm_num)⟩

/-! ### Membership characterizations for node removal -/

theorem mem_remove_nodes_from_nodes (g : Graph) (l : List Node) (v : Node) :
    v ∈ (remove_nodes_from g l).nodes ↔ v ∈ g.nodes ∧ v ∉ l := by
  simp [remove_nodes_from, List.mem_filter]

theorem mem_remove_nodes_from_edges (g : Graph) (l : List Node) (e : GEdge) :
    e ∈ (remove_nodes_from g l).edges ↔ e ∈ g.edges ∧ e.1 ∉ l ∧ e.2.1 ∉ l := by
  simp [remove_nodes_from, List.mem_filter]

theorem remove_paths_cons (g : Graph) (p : List Node) (ps : List (List Node))
    (de ds : Bool) :
    remove_paths g (p :: ps) de ds =
      remove_paths (remove_nodes_from g (nodes_to_remove de ds p)) ps de ds := by
  rw [remove_paths, List.foldl_cons]
  rfl

theorem mem_remove_paths_nodes (de ds : Bool) (pl : List (List Node)) :
    ∀ (g : Graph) (v : Node),
      v ∈ (remove_paths g pl de ds).nodes ↔
        v ∈ g.nodes ∧ ∀ p ∈ pl, v ∉ nodes_to_remove de ds p := by
  induction pl with
  | nil =>
    intro g v
    simp [remove_paths]
  | cons p ps ih =>
    intro g v
    rw [remove_paths_cons, ih, mem_remove_nodes_from_nodes, List.forall_mem_cons]
    tauto

theorem mem_remove_paths_edges (de ds : Bool) (pl : List (List Node)) :
    ∀ (g : Graph) (e : GEdge),
      e ∈ (remove_paths g pl de ds).edges ↔
        e ∈ g.edges ∧ ∀ p ∈ pl,
          e.1 ∉ nodes_to_remove de ds p ∧ e.2.1 ∉ nodes_to_remove de ds p := by
  induction pl with
  | nil =>
    intro g e
    simp [remove_paths]
  | cons p ps ih =>
    intro g e
    rw [remove_paths_cons, ih, mem_remove_nodes_from_edges, List.forall_mem_cons]
    tauto

theorem losing_paths_subset (pl : List (List Node)) (i : ℕ) (p : List Node)
    (h : p ∈ losing_paths pl i) : p ∈ pl := by
  simp only [losing_paths, List.mem_map] at h
  obtain ⟨q, hq, rfl⟩ := h
  have hq2 : q ∈ pl.enum := List.mem_of_mem_filter hq
  rw [List.enum_eq_zip_range] at hq2
  obtain ⟨q1, q2⟩ := q
  exact (List.of_mem_zip hq2).2

/-! ### Shape of the paths produced by the simple-path DFS -/

theorem simple_paths_aux_shape (g : Graph) :
    ∀ (fuel : ℕ) (visited : List Node) (u t : Node) (p : List Node),
      u ∉ visited → p ∈ simple_paths_aux g fuel visited u t →
      p.head? = some u ∧ p.getLast? = some t ∧ p.Nodup ∧ ∀ v ∈ p, v ∉ visited := by
  intro fuel
  induction fuel with
  | zero =>
    intro visited u t p _ hp
    simp [simple_paths_aux] at hp
  | succ f ih =>
    intro visited u t p hu hp
    rw [simple_paths_aux] at hp
    by_cases hut : u = t
    · rw [if_pos hut] at hp
      simp only [List.mem_singleton] at hp
      subst hp
      refine ⟨rfl, by simp [hut], by simp, ?_⟩
      intro v hv
      rw [List.mem_singleton] at hv
      subst hv
      exact hu
    · rw [if_neg hut] at hp
      simp only [List.mem_flatMap, List.mem_map, List.mem_filter] at hp
      obtain ⟨v, ⟨hvsucc, hvnot⟩, q, hq, rfl⟩ := hp
      have hv : v ∉ u :: visited := by simpa using hvnot
      obtain ⟨hh, hl, hnd, hdisj⟩ := ih (u :: visited) v t q hv hq
      obtain ⟨q0, q', rfl⟩ : ∃ q0 q', q = q0 :: q' := by
        cases q with
        | nil => simp at hh
        | cons x y => exact ⟨x, y, rfl⟩
      refine ⟨rfl, ?_, ?_, ?_⟩
      · rw [List.getLast?_cons_cons]
        exact hl
      · rw [List.nodup_cons]
        refine ⟨?_, hnd⟩
        intro hmem
        exact (hdisj u hmem) (List.mem_cons_self u visited)
      · intro v' hv'
        rcases List.mem_cons.1 hv' with rfl | hv'2
        · exact hu
        · exact fun hmem => (hdisj v' hv'2) (List.mem_cons_of_mem u hmem)

theorem all_simple_paths_shape (g : Graph) (s t : Node) (p : List Node)
    (hp : p ∈ all_simple_paths g s t) :
    p.head? = some s ∧ p.getLast? = some t ∧ p.Nodup := by
  have h := simple_paths_aux_shape g (g.nodes.length + 1) [] s t p (by simp) hp
  exact ⟨h.1, h.2.1, h.2.2.1⟩

/-! ### Endpoints never lie in the removed interiors -/

theorem getLast_not_mem_dropLast (p : List Node) (d : Node)
    (hl : p.getLast? = some d) (hnd : p.Nodup) : d ∉ p.dropLast := by
  have hne : p ≠ [] := by
    intro h
    subst h
    simp at hl
  have hd : p.getLast hne = d := by
    rw [List.getLast?_eq_getLast p hne] at hl
    simpa using hl
  have hsplit := List.dropLast_append_getLast hne
  intro hmem
  have hnd2 : (p.dropLast ++ [p.getLast hne]).Nodup := by
    rw [hsplit]
    exact hnd
  rw [List.nodup_append] at hnd2
  exact hnd2.2.2 hmem (by rw [hd]; exact List.mem_singleton_self d)

theorem interior_subset_dropLast (p : List Node) (v : Node)
    (hv : v ∈ (p.drop 1).dropLast) : v ∈ p.dropLast := by
  cases p with
  | nil => simp at hv
  | cons x t =>
    rw [List.drop_one, List.tail_cons] at hv
    cases t with
    | nil => simp at hv
    | cons y t' =>
      rw [List.dropLast_cons₂]
      exact List.mem_cons_of_mem x hv

theorem head_not_mem_interior (p : List Node) (a : Node)
    (hh : p.head? = some a) (hnd : p.Nodup) : a ∉ (p.drop 1).dropLast := by
  cases p with
  | nil => simp at hh
  | cons x t =>
    have hx : x = a := by simpa using hh
    subst hx
    rw [List.drop_one, List.tail_cons]
    intro hmem
    exact (List.nodup_cons.1 hnd).1 ((List.dropLast_sublist t).subset hmem)

theorem getLast_not_mem_interior (p : List Node) (d : Node)
    (hl : p.getLast? = some d) (hnd : p.Nodup) : d ∉ (p.drop 1).dropLast :=
  fun hmem => getLast_not_mem_dropLast p d hl hnd (interior_subset_dropLast p d hmem)

/-! ### Evaluation helpers for `solve_bubble` at concrete graphs -/

theorem path_average_weight_eval (g : Graph) (p : List Node) (es : List GEdge)
    (h : induced_edges g p = es) (hne : es ≠ []) :
    path_average_weight g p =
      some (list_mean (es.map (fun e => (e.2.2 : ℚ)))) := by
  unfold path_average_weight
  rw [h]
  rw [if_neg ?_]
  simp [List.isEmpty_iff, hne]

theorem map_avg_cons (g : Graph) (p : List Node) (ps : List (List Node))
    (w : ℚ) (ws : List ℚ) (h1 : path_average_weight g p = some w)
    (h2 : map_avg g ps = some ws) : map_avg g (p :: ps) = some (w :: ws) := by
  rw [map_avg, h1, h2]

theorem solve_bubble_eval (g : Graph) (a d : Node) (paths : List (List Node))
    (ws : List ℚ) (best : ℕ) (out : Graph)
    (hp : all_simple_paths g a d = paths)
    (h2 : ¬ paths.length < 2)
    (hma : map_avg g paths = some ws)
    (hsel : select_best_index ws (paths.map List.length) = some best)
    (hrp : remove_paths g (losing_paths paths best) false false = out) :
    solve_bubble g a d = some out := by
  unfold solve_bubble
  rw [hp, if_neg h2, hma]
  show select_best_path g paths (paths.map List.length) ws false false = some out
  unfold select_best_path
  rw [hsel]
  show some (remove_paths g (losing_paths paths best) false false) = some out
  rw [hrp]

/-! ### Claim C6 -/

theorem nodes_to_remove_ff (p : List Node) :
    nodes_to_remove false false p = (p.drop 1).dropLast := rfl

theorem nodes_to_remove_tf (p : List Node) :
    nodes_to_remove true false p = p.dropLast := rfl

/-- Claim C6: when `solve_bubble` resolves a bubble (at least two simple
paths from the ancestor to the convergence node), it deletes exactly the
interior nodes of the losing paths: the surviving node set is the original
one minus those interiors, the ancestor and the convergence node are never
deleted, and every original edge between surviving nodes survives (no other
edges appear). -/
theorem C6_bubble_removal_frame (g : Graph) (a d : Node) (g2 : Graph)
    (h2p : 2 ≤ (all_simple_paths g a d).length)
    (h : solve_bubble g a d = some g2) :
    ∃ best,
      (∀ v, v ∈ g2.nodes ↔ v ∈ g.nodes ∧
        ∀ p ∈ losing_paths (all_simple_paths g a d) best, v ∉ (p.drop 1).dropLast) ∧
      (a ∈ g.nodes → a ∈ g2.nodes) ∧
      (d ∈ g.nodes → d ∈ g2.nodes) ∧
      (∀ e ∈ g.edges, e.1 ∈ g2.nodes → e.2.1 ∈ g2.nodes → e ∈ g2.edges) ∧
      (∀ e ∈ g2.edges, e ∈ g.edges) := by
  unfold solve_bubble at h
  rw [if_neg (by omega)] at h
  cases hma : map_avg g (all_simple_paths g a d) with
  | none =>
    rw [hma] at h
    exact absurd h (by simp)
  | some ws =>
    rw [hma] at h
    have h' : select_best_path g (all_simple_paths g a d)
        ((all_simple_paths g a d).map List.length) ws false false = some g2 := h
    unfold select_best_path at h'
    cases hsel : select_best_index ws ((all_simple_paths g a d).map List.length) with
    | none =>
      rw [hsel] at h'
      exact absurd h' (by simp)
    | some best =>
      rw [hsel] at h'
      have h'' : some (remove_paths g
          (losing_paths (all_simple_paths g a d) best) false false) = some g2 := h'
      obtain rfl : remove_paths g
          (losing_paths (all_simple_paths g a d) best) false false = g2 :=
        Option.some_inj.1 h''
      have hinterior : ∀ p ∈ losing_paths (all_simple_paths g a d) best,
          p.head? = some a ∧ p.getLast? = some d ∧ p.Nodup := by
        intro p hp
        exact all_simple_paths_shape g a d p
          (losing_paths_subset (all_simple_paths g a d) best p hp)
      refine ⟨best, ?_, ?_, ?_, ?_, ?_⟩
      · intro v
        rw [mem_remove_paths_nodes]
        constructor
        · rintro ⟨h1, h2⟩
          exact ⟨h1, fun p hp => by rw [← nodes_to_remove_ff]; exact h2 p hp⟩
        · rintro ⟨h1, h2⟩
          exact ⟨h1, fun p hp => by rw [nodes_to_remove_ff]; exact h2 p hp⟩
      · intro ha
        rw [mem_remove_paths_nodes]
        refine ⟨ha, fun p hp => ?_⟩
        obtain ⟨hh, _, hnd⟩ := hinterior p hp
        rw [nodes_to_remove_ff]
        exact head_not_mem_interior p a hh hnd
      · intro hd
        rw [mem_remove_paths_nodes]
        refine ⟨hd, fun p hp => ?_⟩
        obtain ⟨_, hl, hnd⟩ := hinterior p hp
        rw [nodes_to_remove_ff]
        exact getLast_not_mem_interior p d hl hnd
      · intro e he h1 h2
        rw [mem_remove_paths_nodes] at h1 h2
        rw [mem_remove_paths_edges]
        exact ⟨he, fun p hp => ⟨h1.2 p hp, h2.2 p hp⟩⟩
      · intro e he
        rw [mem_remove_paths_edges] at he
        exact he.1

/-- The concrete bubble for the C6 witness: `X → P → N` with weights 5 and
`X → Q → N` with weights 1. -/
def bubbleGraph : Graph :=
  ⟨[['X'], ['P'], ['N'], ['Q']],
   [(['X'], ['P'], 5), (['P'], ['N'], 5), (['X'], ['Q'], 1), (['Q'], ['N'], 1)]⟩

/-- Graph `bubbleGraph` after resolving the bubble: the losing branch's interior
node `Q` is gone, its endpoints `X` and `N` remain. -/
def bubbleGraphSolved : Graph :=
  ⟨[['X'], ['P'], ['N']], [(['X'], ['P'], 5), (['P'], ['N'], 5)]⟩

theorem bubble_graph_solve :
    solve_bubble bubbleGraph ['X'] ['N'] = some bubbleGraphSolved := by
  have hw1 : path_average_weight bubbleGraph [['X'], ['P'], ['N']] = some 5 := by
    rw [path_average_weight_eval bubbleGraph _
      [(['X'], ['P'], 5), (['P'], ['N'], 5)] (by decide) (by decide)]
    norm_num [list_mean]
  have hw2 : path_average_weight bubbleGraph [['X'], ['Q'], ['N']] = some 1 := by
    rw [path_average_weight_eval bubbleGraph _
      [(['X'], ['Q'], 1), (['Q'], ['N'], 1)] (by decide) (by decide)]
    norm_num [list_mean]
  refine solve_bubble_eval bubbleGraph ['X'] ['N']
    [[['X'], ['P'], ['N']], [['X'], ['Q'], ['N']]] [5, 1] 0 bubbleGraphSolved
    (by decide) (by norm_num) ?_ ?_ (by decide)
  · exact map_avg_cons _ _ _ _ _ hw1 (map_avg_cons _ _ _ _ _ hw2 rfl)
  · exact select_best_index_pair_fst 5 1 _ (by norm_num)

/-- Witness for C6 at `bubbleGraph`. -/
theorem C6_bubble_removal_frame_witness :
    (2 ≤ (all_simple_paths bubbleGraph ['X'] ['N']).length ∧
      solve_bubble bubbleGraph ['X'] ['N'] = some bubbleGraphSolved) ∧
    (∃ best,
      (∀ v, v ∈ bubbleGraphSolved.nodes ↔ v ∈ bubbleGraph.nodes ∧
        ∀ p ∈ losing_paths (all_simple_paths bubbleGraph ['X'] ['N']) best,
          v ∉ (p.drop 1).dropLast) ∧
      (['X'] ∈ bubbleGraph.nodes → ['X'] ∈ bubbleGraphSolved.nodes) ∧
      (['N'] ∈ bubbleGraph.nodes → ['N'] ∈ bubbleGraphSolved.nodes) ∧
      (∀ e ∈ bubbleGraph.edges, e.1 ∈ bubbleGraphSolved.nodes →
        e.2.1 ∈ bubbleGraphSolved.nodes → e ∈ bubbleGraphSolved.edges) ∧
      (∀ e ∈ bubbleGraphSolved.edges, e ∈ bubbleGraph.edges)) :=
  ⟨⟨by decide, bubble_graph_solve⟩,
    C6_bubble_removal_frame bubbleGraph ['X'] ['N'] bubbleGraphSolved
      (by decide) bubble_graph_solve⟩

/-! ### Claim C2 -/

/-- The graph on which `simplify_bubbles` loops forever:
`X → N` (weight 1), `X → M` (weight 5), `M → N` (weight 5).  Node `N` has two
predecessors, their lowest common ancestor is `X`, and the best of the two
simple paths `X → N` is `[X, M, N]`; the losing path `[X, N]` has no interior
nodes, so `solve_bubble` removes nothing, yet the loop flag is set and the
scan restarts on the identical graph. -/
def nontermBubbleGraph : Graph :=
  ⟨[['X'], ['N'], ['M']],
   [(['X'], ['N'], 1), (['X'], ['M'], 5), (['M'], ['N'], 5)]⟩

theorem nonterm_bubble_solve :
    solve_bubble nontermBubbleGraph ['X'] ['N'] = some nontermBubbleGraph := by
  have hw1 : path_average_weight nontermBubbleGraph [['X'], ['N']] = some 1 := by
    rw [path_average_weight_eval nontermBubbleGraph _
      [(['X'], ['N'], 1)] (by decide) (by decide)]
    norm_num [list_mean]
  have hw2 : path_average_weight nontermBubbleGraph [['X'], ['M'], ['N']] =
      some (11 / 3) := by
    rw [path_average_weight_eval nontermBubbleGraph _
      [(['X'], ['N'], 1), (['X'], ['M'], 5), (['M'], ['N'], 5)] (by decide) (by decide)]
    norm_num [list_mean]
  refine solve_bubble_eval nontermBubbleGraph ['X'] ['N']
    [[['X'], ['N']], [['X'], ['M'], ['N']]] [1, 11 / 3] 1 nontermBubbleGraph
    (by decide) (by norm_num) ?_ ?_ (by decide)
  · exact map_avg_cons _ _ _ _ _ hw1 (map_avg_cons _ _ _ _ _ hw2 rfl)
  · exact select_best_index_pair_snd 1 (11 / 3) _ (by norm_num)

/-- Claim C2 (code bug): the `simplify_bubbles` fixpoint loop does not
terminate on every finite graph, because a resolution step need not reduce
the node count.  On `nontermBubbleGraph` the scan always finds the bubble at
`N`, `solve_bubble` returns the graph unchanged (the losing path `[X, N]`
has no interior nodes to delete), and the loop repeats identically: for
every fuel bound the loop fails to finish. -/
theorem C2_simplify_bubbles_nonterminating :
    ∀ fuel, simplify_bubbles fuel nontermBubbleGraph = none := by
  have hscan : bubble_scan nontermBubbleGraph = some (['X'], ['N']) := by decide
  intro fuel
  induction fuel with
  | zero => rfl
  | succ f ih =>
    rw [simplify_bubbles, hscan]
    show (match solve_bubble nontermBubbleGraph ['X'] ['N'] with
      | none => none
      | some g2 => simplify_bubbles f g2) = none
    rw [nonterm_bubble_solve]
    show simplify_bubbles f nontermBubbleGraph = none
    exact ih

/-! ### Claim C5 -/

theorem mem_entry_candidates (g : Graph) (starting : List Node) (n : Node)
    (p : List Node) :
    p ∈ entry_candidates g starting n ↔
      ∃ s ∈ starting, has_path g s n = true ∧
        p ∈ all_simple_paths g s n ∧ 2 ≤ p.length := by
  simp only [entry_candidates, List.mem_flatMap]
  constructor
  · rintro ⟨s, hs, hp⟩
    by_cases hhp : has_path g s n
    · rw [if_pos hhp, List.mem_filter] at hp
      exact ⟨s, hs, hhp, hp.1, by simpa using hp.2⟩
    · rw [if_neg hhp] at hp
      simp at hp
  · rintro ⟨s, hs, hhp, hp, hlen⟩
    refine ⟨s, hs, ?_⟩
    rw [if_pos hhp, List.mem_filter]
    exact ⟨hp, by simpa using hlen⟩

theorem head_mem_dropLast (p : List Node) (s : Node) (hh : p.head? = some s)
    (h2 : 2 ≤ p.length) : s ∈ p.dropLast := by
  cases p with
  | nil => simp at hh
  | cons x t =>
    have hx : x = s := by simpa using hh
    subst hx
    cases t with
    | nil => simp at h2
    | cons y t' =>
      rw [List.dropLast_cons₂]
      exact List.mem_cons_self _ _

/-- The graph refuting C5's candidate rule: sources `S` and `T`,
edges `S → N` (weight 9), `T → A` (weight 1), `A → N` (weight 1).
Node `N` has two predecessors; the collected candidates are `[S, N]`
(one single edge) and `[T, A, N]`. -/
def entryTipGraph : Graph :=
  ⟨[['S'], ['N'], ['T'], ['A']],
   [(['S'], ['N'], 9), (['T'], ['A'], 1), (['A'], ['N'], 1)]⟩

/-- Counterexample to C5 as stated: the candidate collection of
`solve_entry_tips` at node `N` of `entryTipGraph` is *not* restricted to
paths of at least 2 edges (at least 3 nodes) — the source's guard is
`len(chemin) >= 2`, which counts nodes, so the one-edge path `[S, N]` is
collected as a candidate and a resolution is performed where the claim says
none may happen. -/
theorem C5_entry_tips_counterexample :
    ¬ (∀ p ∈ entry_candidates entryTipGraph [['S'], ['T']] ['N'],
        3 ≤ p.length) := by decide

/-- Claim C5 (amended): for the first node with ≥ 2 immediate predecessors
and ≥ 2 collected candidates, the candidates are exactly the simple paths of
at least 2 *nodes* (at least 1 edge) from a current source node with a path
to it; the selection then deletes the losing paths' entry (source) nodes and
the rest of their non-final nodes, while the convergence node itself is
kept. -/
theorem C5_entry_tips_resolution (g : Graph) (starting : List Node) (n : Node)
    (h : entry_scan g starting = some n) :
    (∀ p ∈ entry_candidates g starting n,
      2 ≤ p.length ∧ p.getLast? = some n ∧ p.Nodup ∧
      ∃ s ∈ starting, has_path g s n = true ∧ p.head? = some s) ∧
    2 ≤ (predecessors g n).length ∧
    2 ≤ (entry_candidates g starting n).length ∧
    (∀ ws g2, select_best_path g (entry_candidates g starting n)
        ((entry_candidates g starting n).map List.length) ws true false = some g2 →
      ∃ best,
        select_best_index ws ((entry_candidates g starting n).map List.length) =
          some best ∧
        (∀ v, v ∈ g2.nodes ↔ v ∈ g.nodes ∧
          ∀ p ∈ losing_paths (entry_candidates g starting n) best,
            v ∉ p.dropLast) ∧
        (∀ p ∈ losing_paths (entry_candidates g starting n) best, ∀ s,
          p.head? = some s → s ∉ g2.nodes) ∧
        n ∈ g2.nodes) := by
  have hpred := List.find?_some h
  have hmem : n ∈ g.nodes := List.mem_of_find?_eq_some h
  rw [Bool.and_eq_true, decide_eq_true_eq, decide_eq_true_eq] at hpred
  have hshape : ∀ p ∈ entry_candidates g starting n,
      2 ≤ p.length ∧ p.getLast? = some n ∧ p.Nodup ∧
      ∃ s ∈ starting, has_path g s n = true ∧ p.head? = some s := by
    intro p hp
    obtain ⟨s, hs, hhp, hpath, hlen⟩ := (mem_entry_candidates g starting n p).1 hp
    obtain ⟨hh, hl, hnd⟩ := all_simple_paths_shape g s n p hpath
    exact ⟨hlen, hl, hnd, s, hs, hhp, hh⟩
  refine ⟨hshape, hpred.1, hpred.2, ?_⟩
  intro ws g2 hsel
  unfold select_best_path at hsel
  cases hbest : select_best_index ws ((entry_candidates g starting n).map List.length) with
  | none =>
    rw [hbest] at hsel
    exact absurd hsel (by simp)
  | some best =>
    rw [hbest] at hsel
    have hsel2 : some (remove_paths g
        (losing_paths (entry_candidates g starting n) best) true false) = some g2 := hsel
    obtain rfl : remove_paths g
        (losing_paths (entry_candidates g starting n) best) true false = g2 :=
      Option.some_inj.1 hsel2
    have hchar : ∀ v, v ∈ (remove_paths g
        (losing_paths (entry_candidates g starting n) best) true false).nodes ↔
        v ∈ g.nodes ∧ ∀ p ∈ losing_paths (entry_candidates g starting n) best,
          v ∉ p.dropLast := by
      intro v
      rw [mem_remove_paths_nodes]
      constructor
      · rintro ⟨h1, h2⟩
        exact ⟨h1, fun p hp => by rw [← nodes_to_remove_tf]; exact h2 p hp⟩
      · rintro ⟨h1, h2⟩
        exact ⟨h1, fun p hp => by rw [nodes_to_remove_tf]; exact h2 p hp⟩
    refine ⟨best, rfl, hchar, ?_, ?_⟩
    · intro p hp s hhead hcontra
      have h2 := ((hchar s).1 hcontra).2 p hp
      have hcand := losing_paths_subset _ best p hp
      have hlen := (hshape p hcand).1
      exact h2 (head_mem_dropLast p s hhead hlen)
    · rw [hchar]
      refine ⟨hmem, ?_⟩
      intro p hp
      have hcand := losing_paths_subset _ best p hp
      obtain ⟨_, hl, hnd, _⟩ := hshape p hcand
      exact getLast_not_mem_dropLast p n hl hnd

/-- Witness for C5 (amended) at `entryTipGraph` with starting nodes
`[S, T]`: the scan stops at `N`. -/
theorem C5_entry_tips_resolution_witness :
    entry_scan entryTipGraph [['S'], ['T']] = some ['N'] ∧
    ((∀ p ∈ entry_candidates entryTipGraph [['S'], ['T']] ['N'],
      2 ≤ p.length ∧ p.getLast? = some ['N'] ∧ p.Nodup ∧
      ∃ s ∈ [['S'], ['T']], has_path entryTipGraph s ['N'] = true ∧
        p.head? = some s) ∧
    2 ≤ (predecessors entryTipGraph ['N']).length ∧
    2 ≤ (entry_candidates entryTipGraph [['S'], ['T']] ['N']).length ∧
    (∀ ws g2, select_best_path entryTipGraph
        (entry_candidates entryTipGraph [['S'], ['T']] ['N'])
        ((entry_candidates entryTipGraph [['S'], ['T']] ['N']).map List.length)
        ws true false = some g2 →
      ∃ best,
        select_best_index ws
          ((entry_candidates entryTipGraph [['S'], ['T']] ['N']).map List.length) =
            some best ∧
        (∀ v, v ∈ g2.nodes ↔ v ∈ entryTipGraph.nodes ∧
          ∀ p ∈ losing_paths (entry_candidates entryTipGraph [['S'], ['T']] ['N'])
            best, v ∉ p.dropLast) ∧
        (∀ p ∈ losing_paths (entry_candidates entryTipGraph [['S'], ['T']] ['N'])
          best, ∀ s, p.head? = some s → s ∉ g2.nodes) ∧
        ['N'] ∈ g2.nodes)) :=
  ⟨by decide, C5_entry_tips_resolution entryTipGraph [['S'], ['T']] ['N'] (by decide)⟩

/-! ### Claim C10 -/

/-- The consecutive node pairs of a path. -/
def path_pairs (p : List Node) : List (Node × Node) := p.zip p.tail

/-- The path's own edges: for each consecutive pair, the unique graph edge
joining it (the path's chords are exactly the induced-subgraph edges that
are not among these). -/
def own_edges (g : Graph) (p : List Node) : List GEdge :=
  (path_pairs p).filterMap
    (fun q => g.edges.find? (fun e => decide (e.1 = q.1 ∧ e.2.1 = q.2)))

/-- A path is chord-free in `g` when every induced-subgraph edge joins a
consecutive pair of the path. -/
def chord_free (g : Graph) (p : List Node) : Prop :=
  ∀ e ∈ induced_edges g p, (e.1, e.2.1) ∈ path_pairs p

theorem path_pairs_cons (x y : Node) (t : List Node) :
    path_pairs (x :: y :: t) = (x, y) :: path_pairs (y :: t) := rfl

theorem path_pairs_mem (p : List Node) (q : Node × Node)
    (hq : q ∈ path_pairs p) : q.1 ∈ p ∧ q.2 ∈ p := by
  induction p with
  | nil => simp [path_pairs] at hq
  | cons x t ih =>
    cases t with
    | nil => simp [path_pairs] at hq
    | cons y t' =>
      rw [path_pairs_cons] at hq
      rcases List.mem_cons.1 hq with rfl | hq2
      · exact ⟨List.mem_cons_self _ _, List.mem_cons_of_mem _ (List.mem_cons_self _ _)⟩
      · obtain ⟨h1, h2⟩ := ih hq2
        exact ⟨List.mem_cons_of_mem _ h1, List.mem_cons_of_mem _ h2⟩

theorem path_pairs_nodup (p : List Node) (hnd : p.Nodup) :
    (path_pairs p).Nodup := by
  induction p with
  | nil => simp [path_pairs]
  | cons x t ih =>
    cases t with
    | nil => simp [path_pairs]
    | cons y t' =>
      rw [path_pairs_cons, List.nodup_cons]
      obtain ⟨hx, hnd'⟩ := List.nodup_cons.1 hnd
      refine ⟨?_, ih hnd'⟩
      intro hmem
      exact hx (path_pairs_mem (y :: t') (x, y) hmem).1

theorem mem_induced_edges (g : Graph) (p : List Node) (e : GEdge) :
    e ∈ induced_edges g p ↔ e ∈ g.edges ∧ e.1 ∈ p ∧ e.2.1 ∈ p := by
  simp [induced_edges, List.mem_filter]

theorem mem_own_edges (g : Graph) (p : List Node)
    (hedges : (g.edges.map (fun e => (e.1, e.2.1))).Nodup) (e : GEdge) :
    e ∈ own_edges g p ↔ e ∈ g.edges ∧ (e.1, e.2.1) ∈ path_pairs p := by
  constructor
  · intro h
    obtain ⟨q, hq, hfind⟩ := List.mem_filterMap.1 h
    have hmem := List.mem_of_find?_eq_some hfind
    have hpred := List.find?_some hfind
    rw [decide_eq_true_eq] at hpred
    refine ⟨hmem, ?_⟩
    have : (e.1, e.2.1) = q := by
      rw [hpred.1, hpred.2]
    rw [this]
    exact hq
  · rintro ⟨hmem, hpair⟩
    have hsome : ((g.edges.find?
        (fun e' => decide (e'.1 = e.1 ∧ e'.2.1 = e.2.1)))).isSome = true := by
      rw [List.find?_isSome]
      exact ⟨e, hmem, by simp⟩
    obtain ⟨e', he'⟩ := Option.isSome_iff_exists.1 hsome
    have hmem' := List.mem_of_find?_eq_some he'
    have hpred' := List.find?_some he'
    rw [decide_eq_true_eq] at hpred'
    have hee : e' = e :=
      List.inj_on_of_nodup_map hedges hmem' hmem (by rw [Prod.ext_iff]; exact ⟨hpred'.1, by simpa using hpred'.2⟩)
    refine List.mem_filterMap.2 ⟨(e.1, e.2.1), hpair, ?_⟩
    rw [he', hee]

theorem own_edges_nodup (g : Graph) (p : List Node) (hnd : p.Nodup) :
    (own_edges g p).Nodup := by
  apply List.Nodup.filterMap
  · intro a a' b hb hb'
    have h1 := List.find?_some (Option.mem_def.1 hb)
    have h2 := List.find?_some (Option.mem_def.1 hb')
    rw [decide_eq_true_eq] at h1 h2
    rw [Prod.ext_iff]
    constructor
    · rw [← h1.1, ← h2.1]
    · rw [← h1.2, ← h2.2]
  · exact path_pairs_nodup p hnd

/-- Claim C10 (amended): for every simple path of at least two nodes whose
consecutive edges all exist in the graph (with at most one edge per ordered
node pair, as in a networkx `DiGraph`), `path_average_weight` is
well-defined — the induced subgraph's edge list is non-empty — and returns
the mean weight over *all* edges of the subgraph induced by the path's node
set, chords included; whenever the path has no chords, this equals the mean
of the path's own edge weights. -/
theorem C10_path_average_weight_induced_mean (g : Graph) (p : List Node)
    (hnd : p.Nodup) (h2 : 2 ≤ p.length)
    (hedges : (g.edges.map (fun e => (e.1, e.2.1))).Nodup)
    (hcons : ∀ q ∈ path_pairs p, ∃ e ∈ g.edges, e.1 = q.1 ∧ e.2.1 = q.2) :
    induced_edges g p ≠ [] ∧
    path_average_weight g p =
      some (list_mean ((induced_edges g p).map (fun e => (e.2.2 : ℚ)))) ∧
    (chord_free g p →
      path_average_weight g p =
        some (list_mean ((own_edges g p).map (fun e => (e.2.2 : ℚ))))) := by
  have hne : induced_edges g p ≠ [] := by
    obtain ⟨x, y, t, rfl⟩ : ∃ x y t, p = x :: y :: t := by
      cases p with
      | nil => simp at h2
      | cons x t =>
        cases t with
        | nil => simp at h2
        | cons y t' => exact ⟨x, y, t', rfl⟩
    obtain ⟨e, hmem, he1, he2⟩ := hcons (x, y) (by rw [path_pairs_cons]; exact List.mem_cons_self _ _)
    have : e ∈ induced_edges g (x :: y :: t) := by
      rw [mem_induced_edges]
      refine ⟨hmem, ?_, ?_⟩
      · rw [he1]; exact List.mem_cons_self _ _
      · rw [he2]; exact List.mem_cons_of_mem _ (List.mem_cons_self _ _)
    exact List.ne_nil_of_mem this
  have heval : path_average_weight g p =
      some (list_mean ((induced_edges g p).map (fun e => (e.2.2 : ℚ)))) :=
    path_average_weight_eval g p (induced_edges g p) rfl hne
  refine ⟨hne, heval, ?_⟩
  intro hcf
  have hmemiff : ∀ e, e ∈ induced_edges g p ↔ e ∈ own_edges g p := by
    intro e
    rw [mem_own_edges g p hedges, mem_induced_edges]
    constructor
    · rintro ⟨hmem, h1, hsnd⟩
      exact ⟨hmem, hcf e (by rw [mem_induced_edges]; exact ⟨hmem, h1, hsnd⟩)⟩
    · rintro ⟨hmem, hpair⟩
      obtain ⟨ha, hb⟩ := path_pairs_mem p _ hpair
      exact ⟨hmem, ha, hb⟩
  have hndl : (induced_edges g p).Nodup :=
    (List.Nodup.of_map _ hedges).filter _
  have hperm : (induced_edges g p).Perm (own_edges g p) :=
    (List.perm_ext_iff_of_nodup hndl (own_edges_nodup g p hnd)).2 hmemiff
  have hmap := hperm.map (fun e => (e.2.2 : ℚ))
  rw [heval]
  congr 1
  rw [list_mean, list_mean, hmap.sum_eq, hmap.length_eq]

/-- The graph refuting the "only when no chords" direction of C10:
`A → B → C` with a chord `A → C`, all weights 2. -/
def chordGraph : Graph :=
  ⟨[['A'], ['B'], ['C']],
   [(['A'], ['B'], 2), (['B'], ['C'], 2), (['A'], ['C'], 2)]⟩

/-- Counterexample to C10 as stated: on `chordGraph` and the path
`[A, B, C]`, the induced-subgraph mean (2) *equals* the mean of the path's
own edge weights (2) even though the chord `A → C` is present, so the
claimed "equals the path's own mean only when the path has no chords" is
false. -/
theorem C10_equality_with_chord_counterexample :
    path_average_weight chordGraph [['A'], ['B'], ['C']] = some 2 ∧
    list_mean ((own_edges chordGraph [['A'], ['B'], ['C']]).map
      (fun e => (e.2.2 : ℚ))) = 2 ∧
    ¬ chord_free chordGraph [['A'], ['B'], ['C']] := by
  refine ⟨?_, ?_, by unfold chord_free; decide⟩
  · rw [path_average_weight_eval chordGraph _
      [(['A'], ['B'], 2), (['B'], ['C'], 2), (['A'], ['C'], 2)] (by decide) (by decide)]
    norm_num [list_mean]
  · have h : own_edges chordGraph [['A'], ['B'], ['C']] =
        [(['A'], ['B'], 2), (['B'], ['C'], 2)] := by decide
    rw [h]
    norm_num [list_mean]

/-- The chord-free path graph for the C10 witness: `A → B → C` with weights
2 and 4. -/
def plainPathGraph : Graph :=
  ⟨[['A'], ['B'], ['C']], [(['A'], ['B'], 2), (['B'], ['C'], 4)]⟩

/-- Witness for C10 (amended) at `plainPathGraph` and path `[A, B, C]`. -/
theorem C10_path_average_weight_induced_mean_witness :
    (([['A'], ['B'], ['C']] : List Node).Nodup ∧
      2 ≤ ([['A'], ['B'], ['C']] : List Node).length ∧
      (plainPathGraph.edges.map (fun e => (e.1, e.2.1))).Nodup ∧
      (∀ q ∈ path_pairs [['A'], ['B'], ['C']],
        ∃ e ∈ plainPathGraph.edges, e.1 = q.1 ∧ e.2.1 = q.2)) ∧
    (induced_edges plainPathGraph [['A'], ['B'], ['C']] ≠ [] ∧
    path_average_weight plainPathGraph [['A'], ['B'], ['C']] =
      some (list_mean ((induced_edges plainPathGraph [['A'], ['B'], ['C']]).map
        (fun e => (e.2.2 : ℚ)))) ∧
    (chord_free plainPathGraph [['A'], ['B'], ['C']] →
      path_average_weight plainPathGraph [['A'], ['B'], ['C']] =
        some (list_mean ((own_edges plainPathGraph [['A'], ['B'], ['C']]).map
          (fun e => (e.2.2 : ℚ)))))) :=
  ⟨⟨by decide, by decide, by decide, by decide⟩,
    C10_path_average_weight_induced_mean plainPathGraph [['A'], ['B'], ['C']]
      (by decide) (by decide) (by decide) (by decide)⟩

/-! ### Claim C8 -/

/-- Folding `add_edge` over a pre-computed edge triple list. -/
def add_edges (g : Graph) (ts : List GEdge) : Graph :=
  ts.foldl (fun h t => add_edge h t.1 t.2.1 t.2.2) g

theorem add_edges_cons (g : Graph) (t : GEdge) (ts : List GEdge) :
    add_edges g (t :: ts) = add_edges (add_edge g t.1 t.2.1 t.2.2) ts := by
  rw [add_edges, List.foldl_cons]
  rfl

theorem build_graph_eq_add_edges (d : List (List Char × ℕ)) :
    build_graph d =
      add_edges empty_digraph (d.map (fun e => (e.1.dropLast, e.1.drop 1, e.2))) := by
  unfold build_graph add_edges
  rw [List.foldl_map]

theorem add_edge_nodes_mem (g : Graph) (u v : Node) (w : ℕ) (x : Node) :
    x ∈ (add_edge g u v w).nodes ↔ x ∈ g.nodes ∨ x = u ∨ x = v := by
  unfold add_edge
  dsimp only
  split_ifs with h1 h2 h2
  · constructor
    · exact fun h => Or.inl h
    · rintro (h | rfl | rfl)
      · exact h
      · exact h1
      · exact h2
  · rw [List.mem_append, List.mem_singleton]
    constructor
    · rintro (h | rfl)
      · exact Or.inl h
      · exact Or.inr (Or.inr rfl)
    · rintro (h | rfl | rfl)
      · exact Or.inl h
      · exact Or.inl h1
      · exact Or.inr rfl
  · rw [List.mem_append, List.mem_singleton]
    constructor
    · rintro (h | rfl)
      · exact Or.inl h
      · exact Or.inr (Or.inl rfl)
    · rintro (h | rfl | rfl)
      · exact Or.inl h
      · exact Or.inr rfl
      · rcases List.mem_append.1 h2 with h | h
        · exact Or.inl h
        · exact Or.inr (List.mem_singleton.1 h)
  · rw [List.mem_append, List.mem_append, List.mem_singleton, List.mem_singleton]
    constructor
    · rintro ((h | rfl) | rfl)
      · exact Or.inl h
      · exact Or.inr (Or.inl rfl)
      · exact Or.inr (Or.inr rfl)
    · rintro (h | rfl | rfl)
      · exact Or.inl (Or.inl h)
      · exact Or.inl (Or.inr rfl)
      · exact Or.inr rfl

theorem add_edges_nodes_mem (ts : List GEdge) :
    ∀ (g : Graph) (x : Node), x ∈ (add_edges g ts).nodes ↔
      x ∈ g.nodes ∨ ∃ t ∈ ts, x = t.1 ∨ x = t.2.1 := by
  induction ts with
  | nil =>
    intro g x
    simp [add_edges]
  | cons t ts ih =>
    intro g x
    rw [add_edges_cons, ih, add_edge_nodes_mem]
    simp only [List.mem_cons]
    constructor
    · rintro ((h | rfl | rfl) | ⟨t', ht', h⟩)
      · exact Or.inl h
      · exact Or.inr ⟨t, Or.inl rfl, Or.inl rfl⟩
      · exact Or.inr ⟨t, Or.inl rfl, Or.inr rfl⟩
      · exact Or.inr ⟨t', Or.inr ht', h⟩
    · rintro (h | ⟨t', (rfl | ht'), h⟩)
      · exact Or.inl (Or.inl h)
      · exact Or.inl (Or.inr h)
      · exact Or.inr ⟨t', ht', h⟩

theorem add_edges_no_overwrite (ts : List GEdge) :
    ∀ g : Graph, (ts.map (fun t => (t.1, t.2.1))).Nodup →
      (∀ t ∈ ts, ∀ e ∈ g.edges, ¬(e.1 = t.1 ∧ e.2.1 = t.2.1)) →
      (add_edges g ts).edges = g.edges ++ ts := by
  induction ts with
  | nil =>
    intro g _ _
    simp [add_edges]
  | cons t ts ih =>
    intro g hnd hdisj
    rw [List.map_cons, List.nodup_cons] at hnd
    obtain ⟨hkey, hnd2⟩ := hnd
    rw [add_edges_cons]
    have hedge : (add_edge g t.1 t.2.1 t.2.2).edges = g.edges ++ [t] := by
      unfold add_edge
      dsimp only
      rw [if_neg]
      rintro ⟨e, he, hc⟩
      exact hdisj t (List.mem_cons_self t ts) e he hc
    rw [ih (add_edge g t.1 t.2.1 t.2.2) hnd2 ?_, hedge]
    · rw [List.append_assoc]
      rfl
    · intro t' ht' e he hc
      rw [hedge] at he
      rcases List.mem_append.1 he with he2 | he2
      · exact hdisj t' (List.mem_cons_of_mem t ht') e he2 hc
      · rw [List.mem_singleton.1 he2] at hc
        exact hkey (by
          rw [show (t.1, t.2.1) = (t'.1, t'.2.1) from by rw [hc.1, hc.2]]
          exact List.mem_map.2 ⟨t', ht', rfl⟩)

theorem kmer_key_inj (a b : List Char) (ha : 2 ≤ a.length) (hb : 2 ≤ b.length)
    (h1 : a.dropLast = b.dropLast) (h2 : a.drop 1 = b.drop 1) : a = b := by
  cases a with
  | nil => simp at ha
  | cons x a' =>
    cases b with
    | nil => simp at hb
    | cons y b' =>
      rw [List.drop_one, List.drop_one, List.tail_cons, List.tail_cons] at h2
      subst h2
      cases a' with
      | nil => simp at ha
      | cons z t =>
        rw [List.dropLast_cons₂, List.dropLast_cons₂] at h1
        rw [List.cons.injEq] at h1
        rw [h1.1]

/-- Claim C8 (amended): provided every k-mer in the mapping has at least two
characters (k ≥ 2) — so that distinct k-mers induce distinct
(prefix, suffix) pairs — the built graph carries exactly one directed edge
per distinct k-mer, from its first k−1 characters to its last k−1
characters, with weight equal to that k-mer's count, and its node set is
exactly the union of all prefixes and suffixes. -/
theorem C8_build_graph_edges_nodes (d : List (List Char × ℕ))
    (hkeys : (d.map (fun e => e.1)).Nodup)
    (hlen : ∀ e ∈ d, 2 ≤ e.1.length) :
    (build_graph d).edges.length = d.length ∧
    (∀ e ∈ d, (e.1.dropLast, e.1.drop 1, e.2) ∈ (build_graph d).edges) ∧
    (∀ t ∈ (build_graph d).edges, ∃ e ∈ d, t = (e.1.dropLast, e.1.drop 1, e.2)) ∧
    (∀ v, v ∈ (build_graph d).nodes ↔
      ∃ e ∈ d, v = e.1.dropLast ∨ v = e.1.drop 1) := by
  have hpairs : ((d.map (fun e => (e.1.dropLast, e.1.drop 1, e.2))).map
      (fun t => (t.1, t.2.1))).Nodup := by
    rw [List.map_map]
    show (d.map (fun e => (e.1.dropLast, e.1.drop 1))).Nodup
    have hcomp : (d.map (fun e => (e.1.dropLast, e.1.drop 1))) =
        (d.map (fun e => e.1)).map (fun a => (a.dropLast, a.drop 1)) := by
      rw [List.map_map]
      rfl
    rw [hcomp]
    apply List.Nodup.map_on ?_ hkeys
    intro x hx y hy hxy
    obtain ⟨ex, hex, rfl⟩ := List.mem_map.1 hx
    obtain ⟨ey, hey, rfl⟩ := List.mem_map.1 hy
    rw [Prod.ext_iff] at hxy
    exact kmer_key_inj _ _ (hlen ex hex) (hlen ey hey) hxy.1 hxy.2
  have hedges : (build_graph d).edges =
      d.map (fun e => (e.1.dropLast, e.1.drop 1, e.2)) := by
    rw [build_graph_eq_add_edges]
    rw [add_edges_no_overwrite _ empty_digraph hpairs
      (by intro t _ e he; simp [empty_digraph] at he)]
    rfl
  refine ⟨?_, ?_, ?_, ?_⟩
  · rw [hedges, List.length_map]
  · intro e he
    rw [hedges]
    exact List.mem_map.2 ⟨e, he, rfl⟩
  · intro t ht
    rw [hedges] at ht
    obtain ⟨e, he, rfl⟩ := List.mem_map.1 ht
    exact ⟨e, he, rfl⟩
  · intro v
    rw [build_graph_eq_add_edges, add_edges_nodes_mem]
    simp only [empty_digraph, List.not_mem_nil, false_or]
    constructor
    · rintro ⟨t, ht, h⟩
      obtain ⟨e, he, rfl⟩ := List.mem_map.1 ht
      exact ⟨e, he, h⟩
    · rintro ⟨e, he, h⟩
      exact ⟨(e.1.dropLast, e.1.drop 1, e.2), List.mem_map.2 ⟨e, he, rfl⟩, h⟩

/-- A mapping of two distinct single-character k-mers (the `k = 1` case). -/
def collideDict : List (List Char × ℕ) := [(['A'], 1), (['C'], 2)]

/-- Counterexample to C8 as stated: for the k-mer mapping
`{"A": 1, "C": 2}` (distinct keys), both k-mers yield the prefix "" and the
suffix "", so `build_graph` creates a single edge "" → "" (the second entry
overwrites the first, leaving weight 2 ≠ count("A")) — not one edge per
distinct k-mer. -/
theorem C8_one_edge_per_kmer_counterexample :
    (collideDict.map (fun e => e.1)).Nodup ∧
    (build_graph collideDict).edges.length ≠ collideDict.length := by decide

/-- Witness for C8 (amended) at the mapping `{"AB": 3, "BC": 4}`. -/
theorem C8_build_graph_edges_nodes_witness :
    ((([(['A', 'B'], 3), (['B', 'C'], 4)] : List (List Char × ℕ)).map
        (fun e => e.1)).Nodup ∧
      (∀ e ∈ ([(['A', 'B'], 3), (['B', 'C'], 4)] : List (List Char × ℕ)),
        2 ≤ e.1.length)) ∧
    ((build_graph [(['A', 'B'], 3), (['B', 'C'], 4)]).edges.length =
        ([(['A', 'B'], 3), (['B', 'C'], 4)] : List (List Char × ℕ)).length ∧
    (∀ e ∈ ([(['A', 'B'], 3), (['B', 'C'], 4)] : List (List Char × ℕ)),
      (e.1.dropLast, e.1.drop 1, e.2) ∈
        (build_graph [(['A', 'B'], 3), (['B', 'C'], 4)]).edges) ∧
    (∀ t ∈ (build_graph [(['A', 'B'], 3), (['B', 'C'], 4)]).edges,
      ∃ e ∈ ([(['A', 'B'], 3), (['B', 'C'], 4)] : List (List Char × ℕ)),
        t = (e.1.dropLast, e.1.drop 1, e.2)) ∧
    (∀ v, v ∈ (build_graph [(['A', 'B'], 3), (['B', 'C'], 4)]).nodes ↔
      ∃ e ∈ ([(['A', 'B'], 3), (['B', 'C'], 4)] : List (List Char × ℕ)),
        v = e.1.dropLast ∨ v = e.1.drop 1)) :=
  ⟨⟨by decide, by decide⟩,
    C8_build_graph_edges_nodes [(['A', 'B'], 3), (['B', 'C'], 4)]
      (by decide) (by decide)⟩

/-! ### Claim C1: chain graphs -/

/-- The edge list of the graph of a single repeat-free read: one unit-weight
edge between each pair of consecutive (k−1)-mers. -/
def chain_triples : List Node → List GEdge
  | a :: b :: t => (a, b, 1) :: chain_triples (b :: t)
  | _ => []

/-- The De Bruijn graph of a single repeat-free read: its (k−1)-mers in
order, joined consecutively by unit-weight edges. -/
def chain_graph (ns : List Node) : Graph := ⟨ns, chain_triples ns⟩

theorem chain_triples_cons₂ (a b : Node) (t : List Node) :
    chain_triples (a :: b :: t) = (a, b, 1) :: chain_triples (b :: t) := rfl

theorem chain_triples_eq_zip (l : List Node) :
    chain_triples l = (l.zip l.tail).map (fun q => (q.1, q.2, 1)) := by
  induction l with
  | nil => rfl
  | cons a t ih =>
    cases t with
    | nil => rfl
    | cons b t' =>
      rw [chain_triples_cons₂, ih]
      rfl

theorem add_edge_fresh (g : Graph) (u v : Node) (w : ℕ)
    (hu : u ∈ g.nodes) (hv : v ∉ g.nodes)
    (hclosed : ∀ e ∈ g.edges, e.2.1 ∈ g.nodes) :
    add_edge g u v w = ⟨g.nodes ++ [v], g.edges ++ [(u, v, w)]⟩ := by
  have hex : ¬ ∃ e ∈ g.edges, e.1 = u ∧ e.2.1 = v := by
    rintro ⟨e, he, hc⟩
    rw [← hc.2] at hv
    exact hv (hclosed e he)
  unfold add_edge
  dsimp only
  rw [if_pos hu, if_neg hv, if_neg hex]

theorem add_edges_chain_aux (rest : List Node) :
    ∀ (b : Node) (G : Graph), b ∈ G.nodes →
      (∀ e ∈ G.edges, e.2.1 ∈ G.nodes) →
      (b :: rest).Nodup → (∀ v ∈ rest, v ∉ G.nodes) →
      add_edges G (chain_triples (b :: rest)) =
        ⟨G.nodes ++ rest, G.edges ++ chain_triples (b :: rest)⟩ := by
  induction rest with
  | nil =>
    intro b G _ _ _ _
    show add_edges G [] = ⟨G.nodes ++ [], G.edges ++ []⟩
    simp [add_edges]
  | cons r rest' ih =>
    intro b G hb hcl hnd hdisj
    have hrG : r ∉ G.nodes := hdisj r (List.mem_cons_self r rest')
    rw [chain_triples_cons₂, add_edges_cons]
    dsimp only
    rw [add_edge_fresh G b r 1 hb hrG hcl]
    rw [ih r ⟨G.nodes ++ [r], G.edges ++ [(b, r, 1)]⟩ ?_ ?_ ?_ ?_]
    · simp [List.append_assoc]
    · exact List.mem_append.2 (Or.inr (List.mem_singleton_self r))
    · intro e he
      rcases List.mem_append.1 he with he2 | he2
      · exact List.mem_append.2 (Or.inl (hcl e he2))
      · rw [List.mem_singleton.1 he2]
        exact List.mem_append.2 (Or.inr (List.mem_singleton_self r))
    · exact (List.nodup_cons.1 hnd).2
    · intro v hv
      have hnd2 := (List.nodup_cons.1 hnd).2
      rw [List.mem_append, List.mem_singleton]
      rintro (h | rfl)
      · exact hdisj v (List.mem_cons_of_mem r hv) h
      · exact (List.nodup_cons.1 hnd2).1 hv

theorem build_graph_chain (ns : List Node) (hnd : ns.Nodup)
    (a b : Node) (t : List Node) (hsplit : ns = a :: b :: t)
    (d : List (List Char × ℕ))
    (hmap : d.map (fun e => (e.1.dropLast, e.1.drop 1, e.2)) = chain_triples ns) :
    build_graph d = chain_graph ns := by
  subst hsplit
  rw [build_graph_eq_add_edges, hmap, chain_triples_cons₂, add_edges_cons]
  dsimp only
  have hab : ¬ a = b := by
    intro h
    exact (List.nodup_cons.1 hnd).1 (h ▸ List.mem_cons_self b t)
  have h1 : add_edge empty_digraph a b 1 = ⟨[a, b], [(a, b, 1)]⟩ := by
    unfold add_edge empty_digraph
    dsimp only
    rw [if_neg (List.not_mem_nil a)]
    rw [if_neg (by
      rw [List.nil_append, List.mem_singleton]
      exact fun h => hab h.symm)]
    rw [if_neg (by rintro ⟨e, he, _⟩; exact (List.not_mem_nil e) he)]
    rfl
  rw [h1]
  rw [add_edges_chain_aux t b ⟨[a, b], [(a, b, 1)]⟩ ?_ ?_ ?_ ?_]
  · rfl
  · exact List.mem_cons_of_mem a (List.mem_cons_self b [])
  · intro e he
    rw [List.mem_singleton.1 he]
    exact List.mem_cons_of_mem a (List.mem_cons_self b [])
  · exact (List.nodup_cons.1 hnd).2
  · intro v hv
    have hnd2 := List.nodup_cons.1 hnd
    have hnd3 := List.nodup_cons.1 hnd2.2
    intro hmem
    rcases List.mem_cons.1 hmem with rfl | hmem2
    · exact hnd2.1 (List.mem_cons_of_mem b hv)
    · rw [List.mem_singleton] at hmem2
      exact hnd3.1 (hmem2 ▸ hv)

/-! ### Claim C1: substring and dictionary lemmas -/

theorem take_succ_dropLast (l : List Char) (n : ℕ) (h : n + 1 ≤ l.length) :
    (l.take (n + 1)).dropLast = l.take n := by
  rw [List.dropLast_eq_take, List.length_take, min_eq_left h, List.take_take]
  congr 1
  omega

theorem drop_one_take_succ (l : List Char) (n : ℕ) :
    (l.take (n + 1)).drop 1 = (l.drop 1).take n := by
  rw [List.drop_take]
  congr 1

theorem dict_increment_fresh (d : List (List Char × ℕ)) (km : List Char)
    (h : ∀ e ∈ d, e.1 ≠ km) : dict_increment d km = d ++ [(km, 1)] := by
  induction d with
  | nil => rfl
  | cons e t ih =>
    rw [dict_increment]
    rw [if_neg (h e (List.mem_cons_self e t))]
    rw [ih (fun e' he' => h e' (List.mem_cons_of_mem e he'))]
    rfl

theorem foldl_dict_increment_nodup (ks : List (List Char)) :
    ∀ d : List (List Char × ℕ), ((d.map (fun e => e.1)) ++ ks).Nodup →
      ks.foldl dict_increment d = d ++ ks.map (fun km => (km, 1)) := by
  induction ks with
  | nil =>
    intro d _
    simp
  | cons km ks ih =>
    intro d hnd
    rw [List.foldl_cons]
    have hfresh : ∀ e ∈ d, e.1 ≠ km := by
      intro e he heq
      have h1 : km ∈ d.map (fun e => e.1) := List.mem_map.2 ⟨e, he, heq⟩
      exact (List.nodup_append.1 hnd).2.2 h1 (List.mem_cons_self km ks)
    rw [dict_increment_fresh d km hfresh, ih]
    · simp
    · rw [List.map_append]
      have : ((d.map (fun e => e.1)) ++ [km]) ++ ks =
          (d.map (fun e => e.1)) ++ km :: ks := by
        rw [List.append_assoc]
        rfl
      show ((d.map (fun e => e.1)) ++ [(km, 1)].map (fun e => e.1) ++ ks).Nodup
      simp only [List.map_cons, List.map_nil]
      rw [this]
      exact hnd

theorem build_kmer_dict_single (R : List Char) (k : ℕ)
    (hnd : (cut_kmer R k).Nodup) :
    build_kmer_dict [R] k = (cut_kmer R k).map (fun km => (km, 1)) := by
  unfold build_kmer_dict
  rw [List.foldl_cons, List.foldl_nil]
  exact foldl_dict_increment_nodup (cut_kmer R k) [] (by simpa using hnd)

theorem cut_kmer_succ_map_dropLast (R : List Char) (m : ℕ)
    (hmL : m + 1 ≤ R.length) :
    (cut_kmer R (m + 1)).map List.dropLast =
      (cut_kmer R m).take (R.length - m) := by
  rw [cut_kmer, cut_kmer, List.map_map, ← List.map_take, List.take_range]
  have h1 : R.length + 1 - (m + 1) = R.length - m := by omega
  have h2 : (R.length - m) ⊓ (R.length + 1 - m) = R.length - m := by
    rw [min_eq_left]
    omega
  rw [h1, h2]
  apply List.map_congr_left
  intro i hi
  rw [List.mem_range] at hi
  show ((R.drop i).take (m + 1)).dropLast = (R.drop i).take m
  apply take_succ_dropLast
  rw [List.length_drop]
  omega

theorem cut_kmer_succ_nodup (R : List Char) (m : ℕ) (hmL : m + 1 ≤ R.length)
    (hnd : (cut_kmer R m).Nodup) : (cut_kmer R (m + 1)).Nodup := by
  apply List.Nodup.of_map List.dropLast
  rw [cut_kmer_succ_map_dropLast R m hmL]
  exact (List.take_sublist _ _).nodup hnd

theorem chain_triples_of_kmers (R : List Char) (m : ℕ) (hm : 1 ≤ m)
    (hmL : m + 1 ≤ R.length) :
    (cut_kmer R (m + 1)).map (fun km => (km.dropLast, km.drop 1, 1)) =
      chain_triples (cut_kmer R m) := by
  rw [chain_triples_eq_zip]
  apply List.ext_getElem
  · simp only [List.length_map, List.length_zip, cut_kmer, List.length_range,
      List.length_tail]
    omega
  · intro i h1 h2
    have hi : i < R.length - m := by
      simp only [List.length_map, cut_kmer, List.length_range] at h1
      omega
    simp only [List.getElem_map, List.getElem_zip, List.getElem_tail, cut_kmer,
      List.getElem_range]
    have hd : m + 1 ≤ (R.drop i).length := by
      rw [List.length_drop]
      omega
    rw [take_succ_dropLast _ m hd, drop_one_take_succ, List.drop_drop]

/-! ### Claim C1: sources, sinks and paths of a chain graph -/

theorem chain_triples_map_fst (l : List Node) :
    (chain_triples l).map (fun e => e.1) = l.dropLast := by
  induction l with
  | nil => rfl
  | cons a t ih =>
    cases t with
    | nil => rfl
    | cons b t' =>
      rw [chain_triples_cons₂, List.map_cons, ih, List.dropLast_cons₂]

theorem chain_triples_map_snd (l : List Node) :
    (chain_triples l).map (fun e => e.2.1) = l.tail := by
  induction l with
  | nil => rfl
  | cons a t ih =>
    cases t with
    | nil => rfl
    | cons b t' =>
      rw [chain_triples_cons₂, List.map_cons, ih]
      rfl

theorem chain_filter_fst_nil (l : List Node) (x : Node) (hx : x ∉ l) :
    (chain_triples l).filter (fun e => decide (e.1 = x)) = [] := by
  rw [List.filter_eq_nil]
  intro e he
  simp only [decide_eq_true_eq]
  intro heq
  apply hx
  have h1 : e.1 ∈ (chain_triples l).map (fun e => e.1) :=
    List.mem_map.2 ⟨e, he, rfl⟩
  rw [chain_triples_map_fst] at h1
  rw [← heq]
  exact (List.dropLast_sublist l).subset h1

theorem chain_filter_fst (x y : Node) (suf : List Node) : ∀ pre : List Node,
    (pre ++ x :: y :: suf).Nodup →
    (chain_triples (pre ++ x :: y :: suf)).filter (fun e => decide (e.1 = x)) =
      [(x, y, 1)] := by
  intro pre
  induction pre with
  | nil =>
    intro hnd
    rw [List.nil_append, chain_triples_cons₂]
    rw [List.filter_cons_of_pos (by simp)]
    rw [chain_filter_fst_nil (y :: suf) x (List.nodup_cons.1 hnd).1]
  | cons p0 pre' ih =>
    intro hnd
    have hnd' : (p0 :: (pre' ++ x :: y :: suf)).Nodup := hnd
    have hp0 : p0 ∉ pre' ++ x :: y :: suf := (List.nodup_cons.1 hnd').1
    have htail : (pre' ++ x :: y :: suf).Nodup := (List.nodup_cons.1 hnd').2
    have hp0x : ¬ p0 = x := by
      intro h
      exact hp0 (by
        rw [h]
        exact List.mem_append.2 (Or.inr (List.mem_cons_self x (y :: suf))))
    obtain ⟨h0, t0, heq⟩ : ∃ h0 t0, pre' ++ x :: y :: suf = h0 :: t0 := by
      cases pre' with
      | nil => exact ⟨x, y :: suf, rfl⟩
      | cons a b => exact ⟨a, b ++ x :: y :: suf, rfl⟩
    rw [show (p0 :: pre') ++ x :: y :: suf = p0 :: (pre' ++ x :: y :: suf) from rfl]
    rw [heq, chain_triples_cons₂, ← heq]
    rw [List.filter_cons_of_neg (by simpa using hp0x)]
    exact ih htail

theorem chain_succ (ns : List Node) (hnd : ns.Nodup) (pre : List Node)
    (x y : Node) (suf : List Node) (hsplit : ns = pre ++ x :: y :: suf) :
    successors (chain_graph ns) x = [y] := by
  unfold successors chain_graph
  dsimp only
  subst hsplit
  rw [chain_filter_fst x y suf pre hnd]
  rfl

theorem chain_succ_of_getLast (ns : List Node) (x : Node) (hnd : ns.Nodup)
    (hlast : ns.getLast? = some x) :
    successors (chain_graph ns) x = [] := by
  unfold successors chain_graph
  dsimp only
  have hnotin : x ∉ ns.dropLast := getLast_not_mem_dropLast ns x hlast hnd
  have hfil : (chain_triples ns).filter (fun e => decide (e.1 = x)) = [] := by
    rw [List.filter_eq_nil]
    intro e he
    simp only [decide_eq_true_eq]
    intro heq
    apply hnotin
    have h1 : e.1 ∈ (chain_triples ns).map (fun e => e.1) :=
      List.mem_map.2 ⟨e, he, rfl⟩
    rw [chain_triples_map_fst] at h1
    rw [← heq]
    exact h1
  rw [hfil]
  rfl

theorem chain_succ_ne_nil (ns : List Node) (v : Node) (hv : v ∈ ns.dropLast) :
    successors (chain_graph ns) v ≠ [] := by
  unfold successors chain_graph
  dsimp only
  rw [← chain_triples_map_fst] at hv
  obtain ⟨e, he, heq⟩ := List.mem_map.1 hv
  intro hc
  rw [List.map_eq_nil] at hc
  rw [List.filter_eq_nil] at hc
  exact hc e he (by simp [heq])

theorem chain_pred_of_head (ns : List Node) (x : Node) (hnd : ns.Nodup)
    (hh : ns.head? = some x) :
    predecessors (chain_graph ns) x = [] := by
  unfold predecessors chain_graph
  dsimp only
  obtain ⟨t, rfl⟩ : ∃ t, ns = x :: t := by
    cases ns with
    | nil => simp at hh
    | cons a t => exact ⟨t, by rw [show a = x from by simpa using hh]⟩
  have hxt : x ∉ t := (List.nodup_cons.1 hnd).1
  have hfil : (chain_triples (x :: t)).filter (fun e => decide (e.2.1 = x)) = [] := by
    rw [List.filter_eq_nil]
    intro e he
    simp only [decide_eq_true_eq]
    intro heq
    apply hxt
    have h1 : e.2.1 ∈ (chain_triples (x :: t)).map (fun e => e.2.1) :=
      List.mem_map.2 ⟨e, he, rfl⟩
    rw [chain_triples_map_snd] at h1
    rw [← heq]
    exact h1
  rw [hfil]
  rfl

theorem chain_pred_ne_nil (ns : List Node) (v : Node) (hv : v ∈ ns.tail) :
    predecessors (chain_graph ns) v ≠ [] := by
  unfold predecessors chain_graph
  dsimp only
  rw [← chain_triples_map_snd] at hv
  obtain ⟨e, he, heq⟩ := List.mem_map.1 hv
  intro hc
  rw [List.map_eq_nil] at hc
  rw [List.filter_eq_nil] at hc
  exact hc e he (by simp [heq])

theorem chain_starting (ns : List Node) (hnd : ns.Nodup) (a : Node)
    (tl : List Node) (hsplit : ns = a :: tl) :
    get_starting_nodes (chain_graph ns) = [a] := by
  unfold get_starting_nodes
  show (chain_graph ns).nodes.filter _ = [a]
  have hnodes : (chain_graph ns).nodes = a :: tl := by rw [hsplit]; rfl
  rw [hnodes]
  rw [List.filter_cons_of_pos (by
    rw [chain_pred_of_head ns a hnd (by rw [hsplit]; rfl)]
    rfl)]
  rw [List.filter_eq_nil.2 ?_]
  intro v hv
  have h1 : predecessors (chain_graph ns) v ≠ [] :=
    chain_pred_ne_nil ns v (by rw [hsplit]; exact hv)
  simpa [List.isEmpty_iff] using h1

theorem chain_sinks (ns : List Node) (hnd : ns.Nodup) (hne : ns ≠ []) :
    get_sink_nodes (chain_graph ns) = [ns.getLast hne] := by
  unfold get_sink_nodes
  show (chain_graph ns).nodes.filter _ = [ns.getLast hne]
  have hnodes : (chain_graph ns).nodes = ns.dropLast ++ [ns.getLast hne] := by
    show ns = _
    rw [List.dropLast_append_getLast hne]
  rw [hnodes, List.filter_append]
  have h1 : ns.dropLast.filter
      (fun v => (successors (chain_graph ns) v).isEmpty) = [] := by
    rw [List.filter_eq_nil]
    intro v hv
    have := chain_succ_ne_nil ns v hv
    simpa [List.isEmpty_iff] using this
  have h2 : [ns.getLast hne].filter
      (fun v => (successors (chain_graph ns) v).isEmpty) = [ns.getLast hne] := by
    rw [List.filter_cons_of_pos (by
      rw [chain_succ_of_getLast ns _ hnd (List.getLast?_eq_getLast ns hne)]
      rfl)]
    rfl
  rw [h1, h2]
  rfl

theorem chain_paths_aux (ns : List Node) (hnd : ns.Nodup) (t : Node)
    (hlast : ns.getLast? = some t) :
    ∀ (rest : List Node) (x : Node) (pre visited : List Node) (fuel : ℕ),
      ns = pre ++ x :: rest →
      (∀ v ∈ x :: rest, v ∉ visited) →
      rest.length + 1 ≤ fuel →
      simple_paths_aux (chain_graph ns) fuel visited x t = [x :: rest] := by
  intro rest
  induction rest with
  | nil =>
    intro x pre visited fuel hsplit _ hfuel
    have hx : x = t := by
      rw [hsplit, List.getLast?_concat] at hlast
      exact Option.some_inj.1 hlast
    obtain ⟨f, rfl⟩ : ∃ f, fuel = f + 1 := ⟨fuel - 1, by omega⟩
    rw [simple_paths_aux, if_pos hx]
  | cons y rest' ih =>
    intro x pre visited fuel hsplit hdisj hfuel
    obtain ⟨f, rfl⟩ : ∃ f, fuel = f + 1 := ⟨fuel - 1, by omega⟩
    have hndr : (x :: y :: rest').Nodup := by
      rw [hsplit] at hnd
      exact (List.nodup_append.1 hnd).2.1
    have hxnot : x ∉ y :: rest' := (List.nodup_cons.1 hndr).1
    have htmem : t ∈ y :: rest' := by
      have h1 : ns.getLast? = (y :: rest').getLast? := by
        rw [hsplit]
        rw [List.getLast?_append_of_ne_nil pre (List.cons_ne_nil x (y :: rest'))]
        rw [List.getLast?_cons_cons]
      rw [h1] at hlast
      rw [List.getLast?_eq_getLast (y :: rest') (List.cons_ne_nil y rest')] at hlast
      rw [← Option.some_inj.1 hlast]
      exact List.getLast_mem (List.cons_ne_nil y rest')
    have hxt : ¬ x = t := fun h => hxnot (h ▸ htmem)
    rw [simple_paths_aux, if_neg hxt]
    rw [chain_succ ns hnd pre x y rest' hsplit]
    have hyv : y ∉ x :: visited := by
      rw [List.mem_cons]
      rintro (rfl | h)
      · exact hxnot (List.mem_cons_self y rest')
      · exact hdisj y (List.mem_cons_of_mem x (List.mem_cons_self y rest')) h
    rw [List.filter_cons_of_pos (by simpa using hyv), List.filter_nil]
    simp only [List.flatMap_cons, List.flatMap_nil, List.append_nil]
    rw [ih y (pre ++ [x]) (x :: visited) f ?_ ?_ ?_]
    · simp
    · rw [hsplit, List.append_assoc]
      rfl
    · intro v hv
      rw [List.mem_cons]
      rintro (rfl | h)
      · exact hxnot hv
      · exact hdisj v (List.mem_cons_of_mem x hv) h
    · simp at hfuel ⊢
      omega

theorem chain_all_simple_paths (ns : List Node) (hnd : ns.Nodup) (a : Node)
    (tl : List Node) (hsplit : ns = a :: tl) (t : Node)
    (hlast : ns.getLast? = some t) :
    all_simple_paths (chain_graph ns) a t = [ns] := by
  unfold all_simple_paths
  have hfuel : tl.length + 1 ≤ (chain_graph ns).nodes.length + 1 := by
    show tl.length + 1 ≤ ns.length + 1
    rw [hsplit]
    simp
  rw [chain_paths_aux ns hnd t hlast tl a [] [] ((chain_graph ns).nodes.length + 1)
    (by rw [hsplit]; rfl) (by simp) hfuel]
  rw [hsplit]

/-! ### Claim C1: the contig of a chain reconstructs the read -/

theorem contig_of_chain (R : List Char) (m : ℕ) (hm : 1 ≤ m)
    (hmL : m ≤ R.length) : contig_of_path (cut_kmer R m) = R := by
  have hlen : R.length + 1 - m = (R.length - m) + 1 := by omega
  rw [cut_kmer, hlen, List.range_succ_eq_map, List.map_cons, List.map_map]
  show (R.drop 0).take m ++
      ((List.range (R.length - m)).map
        ((fun i => (R.drop i).take m) ∘ Nat.succ)).map
        (fun n => n.getLastD '?') = R
  rw [List.map_map, List.drop_zero]
  have htail : (List.range (R.length - m)).map
      ((fun n : List Char => n.getLastD '?') ∘
        ((fun i => (R.drop i).take m) ∘ Nat.succ)) = R.drop m := by
    apply List.ext_getElem
    · simp [List.length_drop]
    · intro i h1 h2
      simp only [List.getElem_map, List.getElem_range, Function.comp]
      have hiL : i < R.length - m := by simpa using h1
      have hlen2 : ((R.drop (i + 1)).take m).length = m := by
        rw [List.length_take, List.length_drop]
        omega
      have hne2 : (R.drop (i + 1)).take m ≠ [] := by
        intro hc
        rw [hc] at hlen2
        simp at hlen2
        omega
      rw [List.getLastD_eq_getLast?, List.getLast?_eq_getLast _ hne2,
        Option.getD_some, List.getLast_eq_getElem]
      simp only [hlen2]
      rw [List.getElem_take, List.getElem_drop, List.getElem_drop]
      congr 1
      omega
  rw [htail, List.take_append_drop]

/-- Claim C1: for a single read with no repeated (k−1)-mers and
`k ≤ len(read)` (and `k ≥ 1`), building the k-mer dictionary, building the
graph, and extracting contigs between the current source and sink node sets
yields exactly one contig, and that contig is the original read, paired with
its length. -/
theorem C1_single_read_roundtrip (R : List Char) (k : ℕ)
    (hk : 1 ≤ k) (hkR : k ≤ R.length) (hnd : (cut_kmer R (k - 1)).Nodup) :
    get_contigs (build_graph (build_kmer_dict [R] k))
      (get_starting_nodes (build_graph (build_kmer_dict [R] k)))
      (get_sink_nodes (build_graph (build_kmer_dict [R] k))) =
      [(R, R.length)] := by
  rcases Nat.lt_or_ge k 2 with hk1 | hk2
  · exfalso
    have hkeq : k = 1 := by omega
    subst hkeq
    have hL : 1 ≤ R.length := hkR
    have h0 : (cut_kmer R 0).length = R.length + 1 := by
      simp [cut_kmer]
    have h01 : (0 : ℕ) < (cut_kmer R 0).length := by omega
    have h11 : (1 : ℕ) < (cut_kmer R 0).length := by omega
    have he : (cut_kmer R 0)[0] = (cut_kmer R 0)[1] := by
      simp [cut_kmer]
    have h01' : (0 : ℕ) = 1 := (List.Nodup.getElem_inj_iff hnd).1 he
    omega
  · obtain ⟨m, rfl⟩ : ∃ m, k = m + 1 := ⟨k - 1, by omega⟩
    have hm : 1 ≤ m := by omega
    have hmL : m + 1 ≤ R.length := hkR
    have hnsnd : (cut_kmer R m).Nodup := hnd
    have hnslen : (cut_kmer R m).length = R.length + 1 - m := by
      simp [cut_kmer]
    have h2 : 2 ≤ (cut_kmer R m).length := by omega
    obtain ⟨a, b, tl2, hsplit⟩ : ∃ a b tl2, cut_kmer R m = a :: b :: tl2 := by
      rcases hcase : cut_kmer R m with _ | ⟨a, _ | ⟨b, t2⟩⟩
      · rw [hcase] at h2
        simp at h2
      · rw [hcase] at h2
        simp at h2
      · exact ⟨a, b, t2, rfl⟩
    have hkmnd : (cut_kmer R (m + 1)).Nodup := cut_kmer_succ_nodup R m hmL hnsnd
    have hdict : build_kmer_dict [R] (m + 1) =
        (cut_kmer R (m + 1)).map (fun km => (km, 1)) :=
      build_kmer_dict_single R (m + 1) hkmnd
    have hmap : ((cut_kmer R (m + 1)).map (fun km => (km, (1 : ℕ)))).map
        (fun e => (e.1.dropLast, e.1.drop 1, e.2)) = chain_triples (cut_kmer R m) := by
      rw [List.map_map]
      exact chain_triples_of_kmers R m hm hmL
    have hbg : build_graph (build_kmer_dict [R] (m + 1)) =
        chain_graph (cut_kmer R m) := by
      rw [hdict]
      exact build_graph_chain (cut_kmer R m) hnsnd a b tl2 hsplit _ hmap
    have hne : cut_kmer R m ≠ [] := by
      rw [hsplit]
      exact List.cons_ne_nil a _
    have hlast : (cut_kmer R m).getLast? = some ((cut_kmer R m).getLast hne) :=
      List.getLast?_eq_getLast _ hne
    have hstart : get_starting_nodes (chain_graph (cut_kmer R m)) = [a] :=
      chain_starting _ hnsnd a (b :: tl2) hsplit
    have hsink : get_sink_nodes (chain_graph (cut_kmer R m)) =
        [(cut_kmer R m).getLast hne] :=
      chain_sinks _ hnsnd hne
    have hpaths : all_simple_paths (chain_graph (cut_kmer R m)) a
        ((cut_kmer R m).getLast hne) = [cut_kmer R m] :=
      chain_all_simple_paths _ hnsnd a (b :: tl2) hsplit _ hlast
    have hhp : has_path (chain_graph (cut_kmer R m)) a
        ((cut_kmer R m).getLast hne) = true := by
      rw [has_path, hpaths]
      rfl
    rw [hbg, hstart, hsink]
    unfold get_contigs
    simp only [List.flatMap_cons, List.flatMap_nil, List.append_nil]
    rw [if_pos hhp, hpaths]
    simp only [List.map_cons, List.map_nil]
    have hcontig : contig_of_path (cut_kmer R m) = R :=
      contig_of_chain R m hm (by omega)
    rw [hcontig]

/-- Witness for C1 at the read "ACGT" with `k = 2`: the 1-mers A, C, G, T are
pairwise distinct and the pipeline returns exactly the contig "ACGT". -/
theorem C1_single_read_roundtrip_witness :
    (1 ≤ 2 ∧ 2 ≤ (['A', 'C', 'G', 'T'] : List Char).length ∧
      (cut_kmer ['A', 'C', 'G', 'T'] (2 - 1)).Nodup) ∧
    get_contigs (build_graph (build_kmer_dict [['A', 'C', 'G', 'T']] 2))
      (get_starting_nodes (build_graph (build_kmer_dict [['A', 'C', 'G', 'T']] 2)))
      (get_sink_nodes (build_graph (build_kmer_dict [['A', 'C', 'G', 'T']] 2))) =
      [(['A', 'C', 'G', 'T'], 4)] :=
  ⟨⟨by decide, by decide, by decide⟩,
    C1_single_read_roundtrip ['A', 'C', 'G', 'T'] 2
      (by decide) (by decide) (by decide)⟩
